import Mathlib

/-!
Decoder for `.splice` drum machine files (`drum.go`).

A shallow embedding of `Decode`, `readAndSeek`, `trim` and `buildpattern`.

* A byte is a `Nat`; a byte sequence read from a real file has every entry below 256
  (`isByteSeq`).  No arithmetic is done on bytes by the program, so no reduction
  modulo 256 appears.
* An `*os.File` is a regular file: its contents and its cursor.  `ReadAt` does not move the
  cursor, `Seek(n, 1)` moves it relative to its current value and may go past the end.
* `int64` offsets are natural numbers: every offset the program computes is at most the
  file length plus 276, far from `2^63`.
* `float32` is kept as its 32-bit pattern (the little-endian value of the four bytes read).
* The `for` loop of `Decode` is a recursion on a fuel counter; running out of fuel is the
  distinct outcome `none`, and `Decode` supplies the file length as fuel.
* `trackLoopExit` and `DecodeCursor` follow the same control flow as `trackLoop` and `Decode`
  and return what the source leaves in the file: the cursor, and whether the loop was left
  by `break` (`trackLoop_exit_agree` relates the two loops).
* `Pattern.Format` writes to a `fmt.State` that is the text written so far; the text that
  `%v` gives for a `float32` is a parameter.
-/

namespace drum

/-! ## Library functions used by the program (`bytes`, `os`, `encoding/binary`) -/

/-- Scan of `bytes.Index`: the first position at or after `i` where `sep` starts, else `-1`. -/
def bytes.indexFrom (sep : List Nat) : List Nat → Nat → Int
  | [], i => if sep.isPrefixOf [] then (i : Int) else -1
  | b :: s, i => if sep.isPrefixOf (b :: s) then (i : Int) else bytes.indexFrom sep s (i + 1)

/-- Go `bytes.Index(s, sep)`: index of the first instance of `sep` in `s`, or `-1`. -/
def bytes.Index (s sep : List Nat) : Int :=
  bytes.indexFrom sep s 0

/-- Scan of `bytes.IndexByte`: the first position (counted from `i`) holding `c`, else `-1`. -/
def bytes.indexByteFrom (c : Nat) : List Nat → Nat → Int
  | [], _ => -1
  | b :: s, i => if b = c then (i : Int) else bytes.indexByteFrom c s (i + 1)

/-- Go `bytes.IndexByte(b, c)`: index of the first instance of `c` in `b`, or `-1`. -/
def bytes.IndexByte (b : List Nat) (c : Nat) : Int :=
  bytes.indexByteFrom c b 0

/-- Go `bytes.Compare(a, b)`: lexicographic comparison, `0` exactly when `a` equals `b`. -/
def bytes.Compare : List Nat → List Nat → Int
  | [], [] => 0
  | [], _ :: _ => -1
  | _ :: _, [] => 1
  | a :: as, b :: bs => if a < b then -1 else if b < a then 1 else bytes.Compare as bs

/-- An open regular file: its contents and the position of its read cursor. -/
structure File where
  data : List Nat
  pos : Nat
deriving DecidableEq

/-- A freshly opened file (`os.Open` in `DecodeFile`): the cursor is at the start. -/
def os.Open (contents : List Nat) : File :=
  { data := contents, pos := 0 }

/-- Go `f.ReadAt(b, ofst)` on a zeroed buffer `b = make([]byte, length)`: the bytes
available from `ofst` are copied, what lies past the end of the file stays zero. -/
def File.ReadAt (f : File) (length ofst : Nat) : List Nat :=
  (f.data.drop ofst).take length
    ++ List.replicate (length - ((f.data.drop ofst).take length).length) 0

/-- Go `f.Seek(offset, 1)`: move the cursor relative to where it is, return the file and
the new position. -/
def File.Seek (f : File) (offset : Nat) : File × Nat :=
  ({ f with pos := f.pos + offset }, f.pos + offset)

/-- Go `f.Stat()` followed by `Size()`. -/
def File.Size (f : File) : Nat :=
  f.data.length

/-- Bit pattern obtained by `binary.Read(buffer, binary.LittleEndian, &tempo)` for a
`float32`: the little-endian 32-bit value of four bytes; a short buffer leaves the zero
value. -/
def binary.ReadLittleEndian32 : List Nat → Nat
  | [b0, b1, b2, b3] => b0 + 256 * b1 + 65536 * b2 + 16777216 * b3
  | _ => 0

/-! ## The program -/

def spliceHeaderLength : Nat := 14
def versionLength : Nat := 32
def tempoLength : Nat := 4
def trackIdLength : Nat := 1
def errBytesLength : Nat := 3
def trackLength : Nat := 16

structure DrumPattern where
  id : Nat
  name : List Nat
  track : List Nat
deriving DecidableEq

structure Pattern where
  version : List Nat
  tempo : Nat
  patterns : List DrumPattern
deriving DecidableEq

/-- The signature `[]byte{'S', 'P', 'L', 'I', 'C', 'E'}`. -/
def signature : List Nat := [83, 80, 76, 73, 67, 69]

/-- Source `readAndSeek`: read `length` bytes at `ofst`, advance the cursor by `length`
from where it is; returns the file, the new cursor and the buffer. -/
def readAndSeek (f : File) (length ofst : Nat) : File × Nat × List Nat :=
  let b := f.ReadAt length ofst
  let (f, o) := f.Seek length
  (f, o, b)

/-- Source `trim`: cut at the first zero byte when there is one. -/
def trim (b : List Nat) : List Nat :=
  if bytes.IndexByte b 0 ≠ -1 then b.take (bytes.IndexByte b 0).toNat else b

/-- Loop body of `buildpattern` from index `key` on, appending to `newPattern`. -/
def buildpatternLoop : List Nat → Nat → List Nat → List Nat
  | [], _, newPattern => newPattern
  | val :: rest, key, newPattern =>
    let newPattern := if val = 1 then newPattern ++ [0x78] else newPattern ++ [0x2d]
    let newPattern := if key % 4 = 3 then newPattern ++ [0x7c] else newPattern
    buildpatternLoop rest (key + 1) newPattern

/-- Source `buildpattern`.  `math.Mod(float64(key), 4)` is exact for a slice index, so it
is `key % 4`. -/
def buildpattern (pattern : List Nat) : List Nat :=
  buildpatternLoop pattern 0 [0x7c]

/-- The track loop of `Decode`, `fuel` iterations at most; `none` when the fuel runs out
while the loop condition still holds. -/
def trackLoop (fileLength : Nat) : Nat → File → List DrumPattern → Option (List DrumPattern)
  | 0, f, dPatterns =>
    if (f.Seek 0).2 < fileLength then none else some dPatterns
  | fuel + 1, f, dPatterns =>
    let (f, offset) := f.Seek 0
    if offset < fileLength then
      let (f, offset, id) := readAndSeek f trackIdLength offset
      let (f, offset, errBytes) := readAndSeek f errBytesLength offset
      if bytes.Compare errBytes [0, 0, 0] ≠ 0 then
        some dPatterns
      else
        let (f, offset, nameLength) := readAndSeek f 1 offset
        let (f, offset, name) := readAndSeek f (nameLength.headD 0) offset
        let (f, _, track) := readAndSeek f trackLength offset
        trackLoop fileLength fuel f
          (dPatterns ++ [{ id := id.headD 0, name := name, track := track }])
    else
      some dPatterns

/-- The cursor after the three header reads of `Decode` (signature, version, tempo). -/
def headerCursor (f : File) : Nat :=
  let (f, offset, _) := readAndSeek f spliceHeaderLength 0
  let (f, offset, _) := readAndSeek f versionLength offset
  let (_, offset, _) := readAndSeek f tempoLength offset
  offset

/-- Source `Decode`.  `some (.error msg)` is `(nil, err)`, `some (.ok p)` is `(p, nil)`;
`none` would be a track loop that is still running after `fileLength` iterations. -/
def Decode (f : File) : Option (Except String Pattern) :=
  let (f, offset, spliceHeader) := readAndSeek f spliceHeaderLength 0
  if bytes.Index spliceHeader signature = -1 then
    some (.error "File does not contain correct header.")
  else
    let (f, offset, version) := readAndSeek f versionLength offset
    let version := trim version
    let (f, _, tempoBuf) := readAndSeek f tempoLength offset
    let tempo := binary.ReadLittleEndian32 tempoBuf
    let fileLength := f.Size
    match trackLoop fileLength fileLength f [] with
    | none => none
    | some dPatterns => some (.ok { version := version, tempo := tempo, patterns := dPatterns })

/-! ## Vocabulary of the statements -/

/-- One complete track record on disk: id, three zero bytes, name length, name, steps. -/
def encodeRecord (t : DrumPattern) : List Nat :=
  [t.id, 0, 0, 0, t.name.length] ++ t.name ++ t.track

/-- Concatenation of complete track records, in order. -/
def encodeRecords : List DrumPattern → List Nat
  | [] => []
  | t :: ts => encodeRecord t ++ encodeRecords ts

/-- Every entry is a byte. -/
def isByteSeq (data : List Nat) : Prop :=
  ∀ b ∈ data, b < 256

instance (data : List Nat) : Decidable (isByteSeq data) := by
  unfold isByteSeq; infer_instance

/-- Character for one step: `x` when the byte is 1, `-` for every other byte. -/
def stepChar (b : Nat) : Nat :=
  if b = 1 then 0x78 else 0x2d

/-- The four step characters of group `k` (steps `4k .. 4k+3`). -/
def renderGroup (s : List Nat) (k : Nat) : List Nat :=
  ((s.drop (4 * k)).take 4).map stepChar

/-- The error value built by `errors.New` in `Decode`. -/
def missingSignature : String := "File does not contain correct header."

/-! ## Sample inputs -/

/-- The bytes of `0.808-alpha`. -/
def sampleVersion : List Nat := [48, 46, 56, 48, 56, 45, 97, 108, 112, 104, 97]

/-- A 50-byte header: `SPLICE`, eight more header bytes, the version `0.808-alpha`
zero-padded to 32 bytes, the tempo 120.0 (`0x42f00000`). -/
def sampleHeader : List Nat :=
  signature ++ [0, 0, 0, 0, 0, 0, 0, 197] ++ (sampleVersion ++ List.replicate 21 0)
    ++ [0, 0, 240, 66]

/-- The track `(7) kick` with steps `x---x---x---x---`. -/
def sampleKick : DrumPattern :=
  { id := 7, name := [107, 105, 99, 107], track := [1, 0, 0, 0, 1, 0, 0, 0, 1, 0, 0, 0, 1, 0, 0, 0] }

/-- The track `(9) hh` with steps `-x-x-x-x-x-x-x-x`. -/
def sampleHat : DrumPattern :=
  { id := 9, name := [104, 104], track := [0, 1, 0, 1, 0, 1, 0, 1, 0, 1, 0, 1, 0, 1, 0, 1] }

/-- A file laid out with a 6-byte header: `SPLICE`, the 32-byte version region at offset 6,
the tempo at offset 38, nothing after (42 bytes). -/
def sixByteHeaderFile : List Nat :=
  signature ++ (sampleVersion ++ List.replicate 21 0) ++ [0, 0, 240, 66]

/-- A file whose signature starts at offset 1. -/
def shiftedSignatureFile : List Nat :=
  0 :: signature

/-! ## The cursor when `Decode` returns, and `Pattern.Format` -/

/-- The track loop of `Decode` once more, without the collected tracks: the file (with its
cursor) as the loop leaves it, and whether the loop was left by `break`. -/
def trackLoopExit (fileLength : Nat) : Nat → File → Option (File × Bool)
  | 0, f =>
    if (f.Seek 0).2 < fileLength then none else some ((f.Seek 0).1, false)
  | fuel + 1, f =>
    let (f, offset) := f.Seek 0
    if offset < fileLength then
      let (f, offset, _) := readAndSeek f trackIdLength offset
      let (f, offset, errBytes) := readAndSeek f errBytesLength offset
      if bytes.Compare errBytes [0, 0, 0] ≠ 0 then
        some (f, true)
      else
        let (f, offset, nameLength) := readAndSeek f 1 offset
        let (f, offset, _) := readAndSeek f (nameLength.headD 0) offset
        let (f, _, _) := readAndSeek f trackLength offset
        trackLoopExit fileLength fuel f
    else
      some (f, false)

/-- The position of the file cursor when `Decode` returns (after the header read when the
signature is missing, after the track loop otherwise). -/
def DecodeCursor (f : File) : Option Nat :=
  let (f, offset, spliceHeader) := readAndSeek f spliceHeaderLength 0
  if bytes.Index spliceHeader signature = -1 then
    some f.pos
  else
    let (f, offset, _) := readAndSeek f versionLength offset
    let (f, _, _) := readAndSeek f tempoLength offset
    let fileLength := f.Size
    match trackLoopExit fileLength fileLength f with
    | none => none
    | some (f, _) => some f.pos

/-- The bytes of a text constant of the source. -/
def textBytes (s : String) : List Nat :=
  s.toList.map Char.toNat

/-- Verb `%v` of `fmt` for a `byte`: its decimal digits. -/
def fmtDecimal (n : Nat) : List Nat :=
  (Nat.toDigits 10 n).map Char.toNat

/-- Source `Pattern.Format`.  The `fmt.State` is the text written so far; `fmtFloat32` is
the text that `%v` gives for a `float32` with the given bit pattern.  Verb `%s` writes a
byte slice as it is.  The verb argument `c` of the source is not used by it. -/
def Pattern.Format (fmtFloat32 : Nat → List Nat) (p : Pattern) (f : List Nat) : List Nat :=
  let f := f ++ (textBytes "Saved with HW Version: " ++ p.version ++ [10])
  let f := f ++ (textBytes "Tempo: " ++ fmtFloat32 p.tempo ++ [10])
  p.patterns.foldl
    (fun f pattern =>
      f ++ (textBytes "(" ++ fmtDecimal pattern.id ++ textBytes ") " ++ pattern.name ++ [9]
        ++ buildpattern pattern.track ++ [10]))
    f

/-- One line of the display of a track: `(id) name`, a tab, the rendered steps, a newline. -/
def trackLine (t : DrumPattern) : List Nat :=
  textBytes "(" ++ fmtDecimal t.id ++ textBytes ") " ++ t.name ++ [9] ++ buildpattern t.track
    ++ [10]

/-- The offset at which record number `i` of a decoded track list starts: the header and
the records before it. -/
def recordStart (ts : List DrumPattern) (i : Nat) : Nat :=
  spliceHeaderLength + versionLength + tempoLength + (encodeRecords (ts.take i)).length

/-- The 50-byte sample header followed by the single byte 3. -/
def loneIdFile : List Nat :=
  sampleHeader ++ [3]

/-! ## Facts about the library functions -/

theorem bytes.Compare_eq_zero_iff (a b : List Nat) : bytes.Compare a b = 0 ↔ a = b := by
  induction a generalizing b with
  | nil => cases b <;> simp [bytes.Compare]
  | cons x xs ih =>
    cases b with
    | nil => simp [bytes.Compare]
    | cons y ys =>
      simp only [bytes.Compare]
      by_cases h1 : x < y
      · simp [h1]; omega
      · by_cases h2 : y < x
        · simp [h1, h2]; omega
        · have : x = y := by omega
          simp [h1, h2, ih, this]

theorem bytes.indexFrom_eq_neg_one_iff (sep s : List Nat) (i : Nat) :
    bytes.indexFrom sep s i = -1 ↔ ¬ sep <:+: s := by
  induction s generalizing i with
  | nil =>
    simp only [bytes.indexFrom]
    cases sep with
    | nil => simp
    | cons a as => simp [List.isPrefixOf]
  | cons b s ih =>
    simp only [bytes.indexFrom]
    by_cases hp : sep.isPrefixOf (b :: s) = true
    · simp only [hp, if_true]
      have hpre : sep <+: b :: s := List.isPrefixOf_iff_prefix.mp hp
      constructor
      · intro h; omega
      · intro h; exact absurd hpre.isInfix h
    · simp only [hp]
      rw [if_neg (by simp), ih (i + 1), List.infix_cons_iff]
      have hpre : ¬ sep <+: b :: s := fun h => hp (List.isPrefixOf_iff_prefix.mpr h)
      tauto

theorem bytes.Index_eq_neg_one_iff (s sep : List Nat) :
    bytes.Index s sep = -1 ↔ ¬ sep <:+: s :=
  bytes.indexFrom_eq_neg_one_iff sep s 0

theorem File.ReadAt_length (f : File) (length ofst : Nat) :
    (f.ReadAt length ofst).length = length := by
  simp only [File.ReadAt, List.length_append, List.length_replicate, List.length_take,
    List.length_drop]
  omega

theorem File.ReadAt_of_drop (f : File) (ofst : Nat) (a b : List Nat)
    (h : f.data.drop ofst = a ++ b) : f.ReadAt a.length ofst = a := by
  simp [File.ReadAt, h]

theorem drop_add_of_drop {data : List Nat} {ofst : Nat} {a b : List Nat}
    (h : data.drop ofst = a ++ b) : data.drop (ofst + a.length) = b := by
  have := congrArg (List.drop a.length) h
  simpa [List.drop_drop, Nat.add_comm] using this

theorem lt_length_of_drop {data : List Nat} {ofst : Nat} {a : Nat} {b : List Nat}
    (h : data.drop ofst = a :: b) : ofst < data.length := by
  by_contra hc
  rw [List.drop_eq_nil_of_le (by omega)] at h
  cases h

/-- One iteration of the track loop, with the reads and cursor moves spelled out. -/
theorem trackLoop_succ (L fuel : Nat) (data : List Nat) (pos : Nat) (acc : List DrumPattern) :
    trackLoop L (fuel + 1) ⟨data, pos⟩ acc =
      if pos < L then
        if File.ReadAt ⟨data, 0⟩ 3 (pos + 1) ≠ [0, 0, 0] then some acc
        else
          trackLoop L fuel
            ⟨data, pos + 1 + 3 + 1 + (File.ReadAt ⟨data, 0⟩ 1 (pos + 1 + 3)).headD 0 + 16⟩
            (acc ++ [{ id := (File.ReadAt ⟨data, 0⟩ 1 pos).headD 0,
                       name := File.ReadAt ⟨data, 0⟩
                         ((File.ReadAt ⟨data, 0⟩ 1 (pos + 1 + 3)).headD 0) (pos + 1 + 3 + 1),
                       track := File.ReadAt ⟨data, 0⟩ 16
                         (pos + 1 + 3 + 1 + (File.ReadAt ⟨data, 0⟩ 1 (pos + 1 + 3)).headD 0) }])
      else some acc := by
  simp only [trackLoop, readAndSeek, File.Seek, File.ReadAt, trackIdLength, errBytesLength,
    trackLength, Nat.add_zero, bytes.Compare_eq_zero_iff, ne_eq]

theorem trackLoop_zero (L : Nat) (data : List Nat) (pos : Nat) (acc : List DrumPattern) :
    trackLoop L 0 ⟨data, pos⟩ acc = if pos < L then none else some acc := by
  simp only [trackLoop, File.Seek, Nat.add_zero]

theorem encodeRecords_length_ge (ts : List DrumPattern) (hts : ∀ t ∈ ts, t.track.length = 16) :
    21 * ts.length ≤ (encodeRecords ts).length := by
  induction ts with
  | nil => simp [encodeRecords]
  | cons t ts ih =>
    have h1 := hts t (List.mem_cons_self _ _)
    have h2 := ih (fun u hu => hts u (List.mem_cons_of_mem _ hu))
    simp only [encodeRecords, encodeRecord, List.length_append, List.length_cons,
      List.length_nil]
    omega

/-- The loop walks over complete records: it appends them in order and arrives, with the
fuel reduced by their number, at the first byte after them. -/
theorem trackLoop_records (data : List Nat) (ts : List DrumPattern)
    (hts : ∀ t ∈ ts, t.track.length = 16) :
    ∀ (fuel pos : Nat) (acc : List DrumPattern) (tail : List Nat),
      data.drop pos = encodeRecords ts ++ tail → ts.length ≤ fuel →
      trackLoop data.length fuel ⟨data, pos⟩ acc =
        trackLoop data.length (fuel - ts.length) ⟨data, pos + (encodeRecords ts).length⟩
          (acc ++ ts) := by
  induction ts with
  | nil => intro fuel pos acc tail _ _; simp [encodeRecords]
  | cons t ts ih =>
    intro fuel pos acc tail hdrop hfuel
    obtain ⟨id, name, track⟩ := t
    have htrack : track.length = 16 := hts ⟨id, name, track⟩ (List.mem_cons_self _ _)
    have hts2 : ∀ u ∈ ts, u.track.length = 16 := fun u hu => hts u (List.mem_cons_of_mem _ hu)
    obtain ⟨fuel, rfl⟩ : ∃ k, fuel = k + 1 := ⟨fuel - 1, by simp at hfuel; omega⟩
    have h0 : data.drop pos
        = [id] ++ ([0, 0, 0] ++ ([name.length] ++ (name ++ (track ++ (encodeRecords ts ++ tail))))) := by
      rw [hdrop]; simp [encodeRecords, encodeRecord]
    have hlt : pos < data.length := lt_length_of_drop h0
    have h1 := drop_add_of_drop h0
    have h2 := drop_add_of_drop h1
    have h3 := drop_add_of_drop h2
    have h4 := drop_add_of_drop h3
    have h5 := drop_add_of_drop h4
    simp only [List.length_cons, List.length_nil, Nat.zero_add, Nat.reduceAdd] at h1 h2 h3 h4 h5
    have r0 : File.ReadAt ⟨data, 0⟩ 1 pos = [id] := File.ReadAt_of_drop ⟨data, 0⟩ pos [id] _ h0
    have r1 : File.ReadAt ⟨data, 0⟩ 3 (pos + 1) = [0, 0, 0] :=
      File.ReadAt_of_drop ⟨data, 0⟩ _ [0, 0, 0] _ h1
    have r2 : File.ReadAt ⟨data, 0⟩ 1 (pos + 1 + 3) = [name.length] :=
      File.ReadAt_of_drop ⟨data, 0⟩ _ [name.length] _ h2
    have r3 : File.ReadAt ⟨data, 0⟩ name.length (pos + 1 + 3 + 1) = name :=
      File.ReadAt_of_drop ⟨data, 0⟩ _ name _ h3
    have r4 : File.ReadAt ⟨data, 0⟩ 16 (pos + 1 + 3 + 1 + name.length) = track := by
      have := File.ReadAt_of_drop ⟨data, 0⟩ _ track _ h4
      rwa [htrack] at this
    rw [trackLoop_succ, if_pos hlt, r1, if_neg (by simp), r2, r0]
    simp only [List.headD_cons, r3, r4]
    rw [htrack] at h5
    rw [ih hts2 fuel _ _ tail h5 (by simpa using hfuel)]
    have e1 : fuel + 1 - (DrumPattern.mk id name track :: ts).length = fuel - ts.length := by
      simp
    have e2 : pos + (encodeRecords (DrumPattern.mk id name track :: ts)).length
        = pos + 1 + 3 + 1 + name.length + 16 + (encodeRecords ts).length := by
      simp only [encodeRecords, encodeRecord, List.length_append, List.length_cons,
        List.length_nil, htrack]
      omega
    rw [e1, e2, List.append_assoc, List.singleton_append]

/-- The loop never runs out of fuel when the fuel covers the bytes left before the end. -/
theorem trackLoop_total (L : Nat) (data : List Nat) :
    ∀ (fuel pos : Nat) (acc : List DrumPattern), L ≤ pos + fuel →
      ∃ r, trackLoop L fuel ⟨data, pos⟩ acc = some r := by
  intro fuel
  induction fuel with
  | zero =>
    intro pos acc h
    exact ⟨acc, by rw [trackLoop_zero, if_neg (by omega)]⟩
  | succ fuel ih =>
    intro pos acc h
    rw [trackLoop_succ]
    split
    · split
      · exact ⟨acc, rfl⟩
      · exact ih _ _ (by omega)
    · exact ⟨acc, rfl⟩

/-- `Decode` on a freshly opened file, with the header reads spelled out. -/
theorem Decode_open (data : List Nat) :
    Decode (os.Open data) =
      if bytes.Index ((os.Open data).ReadAt spliceHeaderLength 0) signature = -1 then
        some (.error missingSignature)
      else
        match trackLoop data.length data.length ⟨data, 50⟩ [] with
        | none => none
        | some dPatterns =>
          some (.ok { version := trim (File.ReadAt ⟨data, 0⟩ 32 14),
                      tempo := binary.ReadLittleEndian32 (File.ReadAt ⟨data, 0⟩ 4 46),
                      patterns := dPatterns }) := by
  rfl

theorem headerCursor_open (data : List Nat) : headerCursor (os.Open data) = 50 := by
  simp [headerCursor, os.Open, readAndSeek, File.Seek, spliceHeaderLength, versionLength,
    tempoLength]

/-- A pattern without zero bytes that occurs in a zero-padded list occurs before the padding. -/
theorem infix_of_infix_append_zeros (p l : List Nat) (hp : 0 ∉ p) (k : Nat)
    (h : p <:+: l ++ List.replicate k 0) : p <:+: l := by
  induction k with
  | zero => simpa using h
  | succ k ih =>
    rw [List.replicate_succ', ← List.append_assoc, List.infix_concat_iff] at h
    rcases h with h | h
    · rcases List.suffix_concat_iff.mp h with h0 | ⟨t, ht, _⟩
      · subst h0; exact List.nil_infix
      · exact absurd (by simp [ht]) hp
    · exact ih h

theorem signature_infix_header_iff (data : List Nat) :
    signature <:+: File.ReadAt ⟨data, 0⟩ 14 0 ↔ signature <:+: data.take 14 := by
  constructor
  · intro h
    exact infix_of_infix_append_zeros signature _ (by decide) _ (by simpa [File.ReadAt] using h)
  · intro h
    have : data.take 14 <+: File.ReadAt ⟨data, 0⟩ 14 0 := by
      simp [File.ReadAt]
    exact h.trans this.isInfix

theorem signature_infix_of_take (data : List Nat) (h : data.take 6 = signature) :
    signature <:+: data.take 14 := by
  have : data.take 6 <+: data.take 14 := by
    have := List.take_prefix 6 (data.take 14)
    rwa [List.take_take] at this
  rw [h] at this
  exact this.isInfix

/-- What the loop returns extends what it was given. -/
theorem trackLoop_prefix (L : Nat) (data : List Nat) :
    ∀ (fuel pos : Nat) (acc r : List DrumPattern),
      trackLoop L fuel ⟨data, pos⟩ acc = some r → acc <+: r := by
  intro fuel
  induction fuel with
  | zero =>
    intro pos acc r h
    rw [trackLoop_zero] at h
    split at h
    · cases h
    · cases h; exact List.prefix_refl _
  | succ fuel ih =>
    intro pos acc r h
    rw [trackLoop_succ] at h
    split at h
    · split at h
      · cases h; exact List.prefix_refl _
      · exact (List.prefix_append _ _).trans (ih _ _ _ h)
    · cases h; exact List.prefix_refl _

/-- Every record the loop appends is built from reads at a cursor position that lies
before the end of the file. -/
theorem trackLoop_invariant (P : DrumPattern → Prop) (L : Nat) (data : List Nat)
    (hP : ∀ pos, pos < L →
      P { id := (File.ReadAt ⟨data, 0⟩ 1 pos).headD 0,
          name := File.ReadAt ⟨data, 0⟩
            ((File.ReadAt ⟨data, 0⟩ 1 (pos + 1 + 3)).headD 0) (pos + 1 + 3 + 1),
          track := File.ReadAt ⟨data, 0⟩ 16
            (pos + 1 + 3 + 1 + (File.ReadAt ⟨data, 0⟩ 1 (pos + 1 + 3)).headD 0) }) :
    ∀ (fuel pos : Nat) (acc r : List DrumPattern),
      trackLoop L fuel ⟨data, pos⟩ acc = some r → (∀ t ∈ acc, P t) → ∀ t ∈ r, P t := by
  intro fuel
  induction fuel with
  | zero =>
    intro pos acc r h hacc
    rw [trackLoop_zero] at h
    split at h
    · cases h
    · cases h; exact hacc
  | succ fuel ih =>
    intro pos acc r h hacc
    rw [trackLoop_succ] at h
    split at h
    · rename_i hlt
      split at h
      · cases h; exact hacc
      · refine ih _ _ _ h ?_
        intro t ht
        rcases List.mem_append.mp ht with ht | ht
        · exact hacc t ht
        · rw [List.mem_singleton] at ht
          subst ht
          exact hP pos hlt
    · cases h; exact hacc

theorem File.ReadAt_mem (f : File) (length ofst b : Nat) (h : b ∈ f.ReadAt length ofst) :
    b ∈ f.data ∨ b = 0 := by
  simp only [File.ReadAt, List.mem_append, List.mem_replicate] at h
  rcases h with h | h
  · exact Or.inl (List.mem_of_mem_drop (List.mem_of_mem_take h))
  · exact Or.inr h.2

theorem File.ReadAt_one_headD_lt (f : File) (ofst : Nat) (hb : isByteSeq f.data) :
    (f.ReadAt 1 ofst).headD 0 < 256 := by
  have hlen := File.ReadAt_length f 1 ofst
  match hr : f.ReadAt 1 ofst with
  | [] => simp
  | b :: _ =>
    have hm : b ∈ f.ReadAt 1 ofst := by rw [hr]; exact List.mem_cons_self _ _
    rcases File.ReadAt_mem f 1 ofst b hm with h | h
    · simpa using hb b h
    · simp [h]

theorem bytes.indexByteFrom_eq (c : Nat) (s : List Nat) (i : Nat) :
    bytes.indexByteFrom c s i =
      if c ∈ s then ((i + (s.takeWhile (fun x => x != c)).length : Nat) : Int) else -1 := by
  induction s generalizing i with
  | nil => simp [bytes.indexByteFrom]
  | cons b s ih =>
    simp only [bytes.indexByteFrom]
    by_cases hb : b = c
    · subst hb; simp
    · have hcb : ¬ c = b := fun h => hb h.symm
      rw [if_neg hb, ih (i + 1)]
      by_cases hc : c ∈ s
      · simp [hc, hb, List.takeWhile_cons]; omega
      · simp [hc, hcb]

theorem take_length_takeWhile (p : Nat → Bool) (l : List Nat) :
    l.take (l.takeWhile p).length = l.takeWhile p := by
  induction l with
  | nil => simp
  | cons a l ih =>
    by_cases h : p a = true
    · simp [List.takeWhile_cons, h, ih]
    · simp [List.takeWhile_cons, h]

theorem takeWhile_ne_of_not_mem (c : Nat) (l : List Nat) (h : c ∉ l) :
    l.takeWhile (fun x => x != c) = l := by
  induction l with
  | nil => simp
  | cons a l ih =>
    simp only [List.mem_cons, not_or] at h
    have ha : a ≠ c := fun e => h.1 e.symm
    simp [List.takeWhile_cons, ha, ih h.2]

/-- Source `trim` keeps exactly the bytes before the first zero byte. -/
theorem trim_eq_takeWhile (b : List Nat) : trim b = b.takeWhile (fun x => x != 0) := by
  unfold trim bytes.IndexByte
  rw [bytes.indexByteFrom_eq]
  by_cases h : 0 ∈ b
  · simp only [h, if_true]
    rw [if_pos (by omega)]
    simp [take_length_takeWhile]
  · simp [h, takeWhile_ne_of_not_mem 0 b h]

theorem prefix_takeWhile_of_not_mem (c : Nat) (r : List Nat) :
    ∀ q : List Nat, q <+: r → c ∉ q → q <+: r.takeWhile (fun x => x != c) := by
  induction r with
  | nil => intro q hq _; simpa using hq
  | cons a r ih =>
    intro q hq hc
    cases q with
    | nil => exact List.nil_prefix
    | cons x q =>
      rw [List.cons_prefix_cons] at hq
      obtain ⟨rfl, hq⟩ := hq
      simp only [List.mem_cons, not_or] at hc
      have hx : x ≠ c := fun e => hc.1 e.symm
      simp only [List.takeWhile_cons, bne_iff_ne, ne_eq, hx, not_false_eq_true, if_true]
      rw [List.cons_prefix_cons]
      exact ⟨rfl, ih q hq hc.2⟩

theorem not_mem_takeWhile_ne (c : Nat) (r : List Nat) :
    c ∉ r.takeWhile (fun x => x != c) := by
  intro h
  have := List.mem_takeWhile_imp h
  simp at this

theorem buildpatternLoop_cons (val : Nat) (rest : List Nat) (key : Nat) (acc : List Nat) :
    buildpatternLoop (val :: rest) key acc =
      buildpatternLoop rest (key + 1)
        (if key % 4 = 3 then acc ++ [stepChar val] ++ [0x7c] else acc ++ [stepChar val]) := by
  simp only [buildpatternLoop, stepChar]
  by_cases hv : val = 1 <;> by_cases hk : key % 4 = 3 <;> simp [hv, hk]

theorem buildpatternLoop_nil (key : Nat) (acc : List Nat) :
    buildpatternLoop [] key acc = acc := rfl

theorem stepChar_cases (b : Nat) : stepChar b = 0x78 ∨ stepChar b = 0x2d := by
  unfold stepChar; split <;> simp

theorem trackLoop_done (L fuel : Nat) (data : List Nat) (pos : Nat) (acc : List DrumPattern)
    (h : ¬ pos < L) : trackLoop L fuel ⟨data, pos⟩ acc = some acc := by
  cases fuel with
  | zero => rw [trackLoop_zero, if_neg h]
  | succ fuel => rw [trackLoop_succ, if_neg h]

theorem header_check_iff (data : List Nat) :
    bytes.Index ((os.Open data).ReadAt spliceHeaderLength 0) signature = -1
      ↔ ¬ signature <:+: data.take 14 := by
  rw [bytes.Index_eq_neg_one_iff]
  exact not_congr (signature_infix_header_iff data)

theorem File.ReadAt_one_headD (f : File) (ofst : Nat) (h : ofst < f.data.length) :
    some ((f.ReadAt 1 ofst).headD 0) = f.data[ofst]? := by
  unfold File.ReadAt
  rw [List.drop_eq_getElem_cons h, List.getElem?_eq_getElem h]
  rfl

/-- The first record the loop appends to an empty list was read at the cursor it started
from, and that cursor was before the end of the file. -/
theorem trackLoop_first (L : Nat) (data : List Nat) (fuel pos : Nat) (t : DrumPattern)
    (rest : List DrumPattern) (h : trackLoop L fuel ⟨data, pos⟩ [] = some (t :: rest)) :
    pos < L ∧ t.id = (File.ReadAt ⟨data, 0⟩ 1 pos).headD 0 := by
  cases fuel with
  | zero =>
    rw [trackLoop_zero] at h
    split at h <;> cases h
  | succ fuel =>
    rw [trackLoop_succ] at h
    split at h
    · rename_i hlt
      split at h
      · cases h
      · have hpre := trackLoop_prefix _ _ _ _ _ _ h
        rw [List.nil_append, List.cons_prefix_cons] at hpre
        exact ⟨hlt, by rw [← hpre.1]⟩
    · cases h

/-! ## The claims -/

/-- C1: when the signature check passes and the bytes from the cursor left by header
parsing to the end of the input are exactly N complete records (id, three zero bytes, name
length, name, 16 step bytes), `Decode` returns without error a Pattern whose tracks are
exactly those N records, in file order, records with equal ids kept apart. -/
theorem C1_decode_complete_records (data : List Nat) (ts : List DrumPattern)
    (hsig : bytes.Index ((os.Open data).ReadAt spliceHeaderLength 0) signature ≠ -1)
    (hts : ∀ t ∈ ts, t.track.length = 16)
    (hregion : data.drop (headerCursor (os.Open data)) = encodeRecords ts) :
    ∃ p, Decode (os.Open data) = some (.ok p) ∧ p.patterns = ts := by
  rw [headerCursor_open] at hregion
  have hlen : (encodeRecords ts).length = data.length - 50 := by
    rw [← hregion, List.length_drop]
  have hge := encodeRecords_length_ge ts hts
  have hwalk := trackLoop_records data ts hts data.length 50 [] []
    (by simpa using hregion) (by omega)
  rw [trackLoop_done data.length (data.length - ts.length) data
    (50 + (encodeRecords ts).length) ([] ++ ts) (by omega)] at hwalk
  rw [Decode_open, if_neg hsig, hwalk]
  exact ⟨_, rfl, by simp⟩

theorem C1_decode_complete_records_witness :
    bytes.Index ((os.Open (sampleHeader ++ encodeRecords [sampleKick, sampleHat, sampleKick])).ReadAt
        spliceHeaderLength 0) signature ≠ -1
    ∧ (∀ t ∈ [sampleKick, sampleHat, sampleKick], t.track.length = 16)
    ∧ (sampleHeader ++ encodeRecords [sampleKick, sampleHat, sampleKick]).drop
        (headerCursor (os.Open (sampleHeader ++ encodeRecords [sampleKick, sampleHat, sampleKick])))
        = encodeRecords [sampleKick, sampleHat, sampleKick]
    ∧ ∃ p, Decode (os.Open (sampleHeader ++ encodeRecords [sampleKick, sampleHat, sampleKick]))
        = some (.ok p) ∧ p.patterns = [sampleKick, sampleHat, sampleKick] :=
  ⟨by decide, by decide, by decide,
    C1_decode_complete_records _ [sampleKick, sampleHat, sampleKick]
      (by decide) (by decide) (by decide)⟩

/-- C2: when the six bytes `SPLICE` occur nowhere in the input, `Decode` returns the
missing-signature error and no Pattern. -/
theorem C2_no_signature_fails (data : List Nat) (h : ¬ signature <:+: data) :
    Decode (os.Open data) = some (.error missingSignature) := by
  have hcheck : bytes.Index ((os.Open data).ReadAt spliceHeaderLength 0) signature = -1 := by
    rw [header_check_iff]
    exact fun hin => h (hin.trans (List.take_prefix 14 data).isInfix)
  rw [Decode_open, if_pos hcheck]

theorem C2_no_signature_fails_witness :
    ¬ signature <:+: [83, 80, 76, 73, 67, 0, 69, 1, 2, 3]
    ∧ Decode (os.Open [83, 80, 76, 73, 67, 0, 69, 1, 2, 3]) = some (.error missingSignature) :=
  ⟨by decide, C2_no_signature_fails _ (by decide)⟩

/-- C3: the missing-signature error is the only error of `Decode`: an input whose first
six bytes are `SPLICE` always yields a Pattern and no error, whatever follows; and any
error `Decode` returns on any input is the missing-signature error. -/
theorem C3_signature_is_only_error (data : List Nat) (h : data.take 6 = signature) :
    (∃ p, Decode (os.Open data) = some (.ok p))
    ∧ ∀ (other : List Nat) (e : String),
        Decode (os.Open other) = some (.error e) → e = missingSignature := by
  constructor
  · have hcheck : ¬ bytes.Index ((os.Open data).ReadAt spliceHeaderLength 0) signature = -1 := by
      rw [header_check_iff, not_not]
      exact signature_infix_of_take data h
    obtain ⟨r, hr⟩ := trackLoop_total data.length data data.length 50 [] (by omega)
    rw [Decode_open, if_neg hcheck, hr]
    exact ⟨_, rfl⟩
  · intro other e he
    rw [Decode_open] at he
    split at he
    · cases he; rfl
    · obtain ⟨r, hr⟩ := trackLoop_total other.length other other.length 50 [] (by omega)
      rw [hr] at he
      cases he

theorem C3_signature_is_only_error_witness :
    (signature ++ [1, 2, 3, 255]).take 6 = signature
    ∧ ∃ p, Decode (os.Open (signature ++ [1, 2, 3, 255])) = some (.ok p) :=
  ⟨by decide, (C3_signature_is_only_error (signature ++ [1, 2, 3, 255]) (by decide)).1⟩

/-- C4: when the signature check passes and the bytes from the cursor left by header
parsing are N complete records, then an id byte and three padding bytes that are not
`0,0,0`, then anything, `Decode` returns without error exactly the first N tracks. -/
theorem C4_corrupted_tail_discarded (data : List Nat) (ts : List DrumPattern)
    (id p0 p1 p2 : Nat) (rest : List Nat)
    (hsig : bytes.Index ((os.Open data).ReadAt spliceHeaderLength 0) signature ≠ -1)
    (hts : ∀ t ∈ ts, t.track.length = 16)
    (hpad : [p0, p1, p2] ≠ [0, 0, 0])
    (hregion : data.drop (headerCursor (os.Open data))
      = encodeRecords ts ++ [id, p0, p1, p2] ++ rest) :
    ∃ p, Decode (os.Open data) = some (.ok p) ∧ p.patterns = ts := by
  rw [headerCursor_open] at hregion
  have hlen : (encodeRecords ts).length + 4 + rest.length = data.length - 50 := by
    rw [← List.length_drop, hregion]
    simp only [List.length_append, List.length_cons, List.length_nil]
  have hge := encodeRecords_length_ge ts hts
  have hreg2 : data.drop 50 = encodeRecords ts ++ ([id] ++ ([p0, p1, p2] ++ rest)) := by
    rw [hregion]; simp
  have hwalk := trackLoop_records data ts hts data.length 50 [] _ hreg2 (by omega)
  have hnext := drop_add_of_drop hreg2
  have hpadAt := drop_add_of_drop hnext
  have hread : File.ReadAt ⟨data, 0⟩ 3 (50 + (encodeRecords ts).length + 1) = [p0, p1, p2] :=
    File.ReadAt_of_drop ⟨data, 0⟩ _ [p0, p1, p2] _ hpadAt
  obtain ⟨fuel, hfuel⟩ : ∃ k, data.length - ts.length = k + 1 :=
    ⟨data.length - ts.length - 1, by omega⟩
  rw [hfuel, trackLoop_succ, if_pos (by omega), hread, if_pos hpad] at hwalk
  rw [Decode_open, if_neg hsig, hwalk]
  exact ⟨_, rfl, by simp⟩

theorem C4_corrupted_tail_discarded_witness :
    bytes.Index ((os.Open (sampleHeader ++ encodeRecords [sampleKick, sampleHat]
        ++ [5, 0, 1, 0] ++ encodeRecord sampleKick)).ReadAt spliceHeaderLength 0) signature ≠ -1
    ∧ (∀ t ∈ [sampleKick, sampleHat], t.track.length = 16)
    ∧ [0, 1, 0] ≠ [0, 0, 0]
    ∧ (sampleHeader ++ encodeRecords [sampleKick, sampleHat] ++ [5, 0, 1, 0]
          ++ encodeRecord sampleKick).drop
        (headerCursor (os.Open (sampleHeader ++ encodeRecords [sampleKick, sampleHat]
          ++ [5, 0, 1, 0] ++ encodeRecord sampleKick)))
        = encodeRecords [sampleKick, sampleHat] ++ [5, 0, 1, 0] ++ encodeRecord sampleKick
    ∧ ∃ p, Decode (os.Open (sampleHeader ++ encodeRecords [sampleKick, sampleHat]
          ++ [5, 0, 1, 0] ++ encodeRecord sampleKick)) = some (.ok p)
        ∧ p.patterns = [sampleKick, sampleHat] :=
  ⟨by decide, by decide, by decide, by decide,
    C4_corrupted_tail_discarded _ [sampleKick, sampleHat] 5 0 1 0 (encodeRecord sampleKick)
      (by decide) (by decide) (by decide) (by decide)⟩

/-- C5: for a 16-byte step sequence `s`, `buildpattern s` is the 21-byte string
`|g0|g1|g2|g3|`, where `gk` holds the characters of steps `4k..4k+3` and a step is `x` when
its byte is 1 and `-` for every other byte; it has 5 bars and 16 step characters. -/
theorem C5_buildpattern_sixteen (s : List Nat) (h : s.length = 16) :
    buildpattern s
        = [0x7c] ++ renderGroup s 0 ++ [0x7c] ++ renderGroup s 1 ++ [0x7c]
            ++ renderGroup s 2 ++ [0x7c] ++ renderGroup s 3 ++ [0x7c]
    ∧ (∀ k, k < 4 → (renderGroup s k).length = 4)
    ∧ (∀ b, stepChar b = (if b = 1 then 0x78 else 0x2d))
    ∧ (buildpattern s).length = 21
    ∧ (buildpattern s).count 0x7c = 5
    ∧ (buildpattern s).count 0x78 + (buildpattern s).count 0x2d = 16 := by
  match s, h with
  | [a0, a1, a2, a3, a4, a5, a6, a7, a8, a9, a10, a11, a12, a13, a14, a15], _ =>
    have hshape : buildpattern [a0, a1, a2, a3, a4, a5, a6, a7, a8, a9, a10, a11, a12, a13, a14, a15]
        = [0x7c, stepChar a0, stepChar a1, stepChar a2, stepChar a3, 0x7c,
            stepChar a4, stepChar a5, stepChar a6, stepChar a7, 0x7c,
            stepChar a8, stepChar a9, stepChar a10, stepChar a11, 0x7c,
            stepChar a12, stepChar a13, stepChar a14, stepChar a15, 0x7c] := by
      simp only [buildpattern, buildpatternLoop_cons, buildpatternLoop_nil, Nat.zero_add,
        Nat.reduceAdd, Nat.reduceMod, Nat.reduceEqDiff, if_true, if_false, List.cons_append,
        List.nil_append, List.append_assoc]
    have hbar : ∀ b, ¬ stepChar b = 0x7c := by
      intro b; rcases stepChar_cases b with e | e <;> rw [e] <;> decide
    have hcount : ∀ b, (if stepChar b = 0x78 then 1 else 0) + (if stepChar b = 0x2d then 1 else 0) = 1 := by
      intro b; rcases stepChar_cases b with e | e <;> rw [e] <;> decide
    refine ⟨?_, ?_, fun b => rfl, ?_, ?_, ?_⟩
    · rw [hshape]; simp [renderGroup]
    · intro k hk
      interval_cases k <;> simp [renderGroup]
    · rw [hshape]; rfl
    · rw [hshape]
      simp [List.count_cons, hbar]
    · rw [hshape]
      have c0 := hcount a0; have c1 := hcount a1; have c2 := hcount a2; have c3 := hcount a3
      have c4 := hcount a4; have c5 := hcount a5; have c6 := hcount a6; have c7 := hcount a7
      have c8 := hcount a8; have c9 := hcount a9; have c10 := hcount a10
      have c11 := hcount a11; have c12 := hcount a12; have c13 := hcount a13
      have c14 := hcount a14; have c15 := hcount a15
      simp only [List.count_cons, List.count_nil, beq_iff_eq]
      simp only [show ¬ (124 : Nat) = 120 by decide, show ¬ (124 : Nat) = 45 by decide, if_false]
      omega

theorem C5_buildpattern_sixteen_witness :
    [1, 0, 0, 0, 1, 0, 0, 0, 1, 0, 0, 0, 1, 0, 0, 0].length = 16
    ∧ buildpattern [1, 0, 0, 0, 1, 0, 0, 0, 1, 0, 0, 0, 1, 0, 0, 0]
        = [0x7c, 0x78, 0x2d, 0x2d, 0x2d, 0x7c, 0x78, 0x2d, 0x2d, 0x2d, 0x7c,
            0x78, 0x2d, 0x2d, 0x2d, 0x7c, 0x78, 0x2d, 0x2d, 0x2d, 0x7c]
    ∧ String.mk ((buildpattern [1, 0, 0, 0, 1, 0, 0, 0, 1, 0, 0, 0, 1, 0, 0, 0]).map Char.ofNat)
        = "|x---|x---|x---|x---|" :=
  ⟨by decide,
    (C5_buildpattern_sixteen [1, 0, 0, 0, 1, 0, 0, 0, 1, 0, 0, 0, 1, 0, 0, 0] (by decide)).1,
    by decide⟩

/-- The parts of a Pattern that `Decode` returns on a freshly opened file. -/
theorem Decode_ok_parts (data : List Nat) (p : Pattern)
    (h : Decode (os.Open data) = some (.ok p)) :
    bytes.Index ((os.Open data).ReadAt spliceHeaderLength 0) signature ≠ -1
    ∧ p.version = trim ((os.Open data).ReadAt versionLength spliceHeaderLength)
    ∧ p.tempo = binary.ReadLittleEndian32 ((os.Open data).ReadAt tempoLength
        (spliceHeaderLength + versionLength))
    ∧ trackLoop data.length data.length ⟨data, 50⟩ [] = some p.patterns := by
  rw [Decode_open] at h
  split at h
  · cases h
  · rename_i hsig
    split at h
    · cases h
    · rename_i r hr
      cases h
      exact ⟨hsig, rfl, rfl, hr⟩

/-- C6: the version that `Decode` returns is the 32-byte region it reads after the header,
cut before its first zero byte, and the whole region when it holds no zero byte: `trim` of
a region is its longest prefix without a zero byte. -/
theorem C6_version_is_trimmed_region (data : List Nat) (p : Pattern)
    (h : Decode (os.Open data) = some (.ok p)) :
    ((os.Open data).ReadAt versionLength spliceHeaderLength).length = 32
    ∧ p.version = trim ((os.Open data).ReadAt versionLength spliceHeaderLength)
    ∧ (∀ r : List Nat,
        trim r = r.takeWhile (fun b => b != 0)
        ∧ trim r <+: r
        ∧ 0 ∉ trim r
        ∧ (∀ q : List Nat, q <+: r → 0 ∉ q → q <+: trim r)
        ∧ (0 ∉ r → trim r = r)) := by
  refine ⟨File.ReadAt_length _ _ _, (Decode_ok_parts data p h).2.1, ?_⟩
  intro r
  rw [trim_eq_takeWhile]
  exact ⟨rfl, List.takeWhile_prefix _, not_mem_takeWhile_ne 0 r,
    prefix_takeWhile_of_not_mem 0 r, takeWhile_ne_of_not_mem 0 r⟩

theorem C6_version_is_trimmed_region_witness :
    Decode (os.Open sampleHeader)
        = some (.ok { version := sampleVersion, tempo := 1123024896, patterns := [] })
    ∧ (os.Open sampleHeader).ReadAt versionLength spliceHeaderLength
        = sampleVersion ++ List.replicate 21 0
    ∧ ((os.Open sampleHeader).ReadAt versionLength spliceHeaderLength).length = 32
    ∧ sampleVersion = trim ((os.Open sampleHeader).ReadAt versionLength spliceHeaderLength)
    ∧ trim (sampleVersion ++ List.replicate 21 0)
        = (sampleVersion ++ List.replicate 21 0).takeWhile (fun b => b != 0) :=
  ⟨rfl, by decide,
    (C6_version_is_trimmed_region sampleHeader
      { version := sampleVersion, tempo := 1123024896, patterns := [] } rfl).1,
    (C6_version_is_trimmed_region sampleHeader
      { version := sampleVersion, tempo := 1123024896, patterns := [] } rfl).2.1,
    ((C6_version_is_trimmed_region sampleHeader
      { version := sampleVersion, tempo := 1123024896, patterns := [] } rfl).2.2
        (sampleVersion ++ List.replicate 21 0)).1⟩

/-- C7 (as stated, refuted): on the 42-byte file with `SPLICE` at offset 0, the version
region `0.808-alpha` at offset 6 and the tempo at offset 38, `Decode` returns the version
`pha` and the tempo bits 0, not the trimmed bytes 6..37 and the value of bytes 38..41. -/
theorem C7_six_byte_layout_counterexample :
    sixByteHeaderFile.length = 42
    ∧ sixByteHeaderFile.take 6 = signature
    ∧ trim ((sixByteHeaderFile.drop 6).take 32) = sampleVersion
    ∧ binary.ReadLittleEndian32 ((sixByteHeaderFile.drop 38).take 4) = 1123024896
    ∧ Decode (os.Open sixByteHeaderFile)
        = some (.ok { version := [112, 104, 97], tempo := 0, patterns := [] })
    ∧ ¬ Decode (os.Open sixByteHeaderFile)
        = some (.ok { version := trim ((sixByteHeaderFile.drop 6).take 32),
                      tempo := binary.ReadLittleEndian32 ((sixByteHeaderFile.drop 38).take 4),
                      patterns := [] }) := by
  refine ⟨by decide, by decide, by decide, by decide, rfl, ?_⟩
  intro h
  have hp := Except.ok.inj (Option.some.inj h)
  exact absurd (congrArg Pattern.tempo hp) (by decide)

/-- C7 (amended): on a 50-byte input with `SPLICE` at offset 0, the 32-byte version region
at offset 14 and the 4-byte tempo at offset 46, `Decode` returns a Pattern with no tracks,
the zero-trimmed bytes 14..45 as version and the value of bytes 46..49 as tempo. -/
theorem C7_empty_pattern_header (data : List Nat) (hlen : data.length = 50)
    (hsig : data.take 6 = signature) :
    Decode (os.Open data)
      = some (.ok { version := trim ((data.drop 14).take 32),
                    tempo := binary.ReadLittleEndian32 ((data.drop 46).take 4),
                    patterns := [] }) := by
  have hcheck : ¬ bytes.Index ((os.Open data).ReadAt spliceHeaderLength 0) signature = -1 := by
    rw [header_check_iff, not_not]
    exact signature_infix_of_take data hsig
  have hv : File.ReadAt ⟨data, 0⟩ 32 14 = (data.drop 14).take 32 := by
    simp [File.ReadAt, hlen]
  have ht : File.ReadAt ⟨data, 0⟩ 4 46 = (data.drop 46).take 4 := by
    simp [File.ReadAt, hlen]
  rw [Decode_open, if_neg hcheck, trackLoop_done _ _ _ _ _ (by omega), hv, ht]

theorem C7_empty_pattern_header_witness :
    sampleHeader.length = 50 ∧ sampleHeader.take 6 = signature
    ∧ Decode (os.Open sampleHeader)
      = some (.ok { version := trim ((sampleHeader.drop 14).take 32),
                    tempo := binary.ReadLittleEndian32 ((sampleHeader.drop 46).take 4),
                    patterns := [] }) :=
  ⟨by decide, by decide, C7_empty_pattern_header sampleHeader (by decide) (by decide)⟩

/-- C8 (as stated, refuted): the first six bytes of the 7-byte input `0, SPLICE` are not
`SPLICE`, yet `Decode` returns a Pattern and no error. -/
theorem C8_shifted_signature_counterexample :
    shiftedSignatureFile.take 6 ≠ signature
    ∧ Decode (os.Open shiftedSignatureFile)
        = some (.ok { version := [], tempo := 0, patterns := [] })
    ∧ Decode (os.Open shiftedSignatureFile) ≠ some (.error missingSignature) := by
  refine ⟨by decide, rfl, ?_⟩
  intro h
  have h2 : some (Except.ok (Pattern.mk [] 0 []))
      = some (Except.error missingSignature) := h
  cases h2

/-- C8 (amended): `Decode` fails with the missing-signature error exactly when `SPLICE`
does not occur inside the first 14 bytes of the input. -/
theorem C8_signature_within_fourteen (data : List Nat) :
    Decode (os.Open data) = some (.error missingSignature)
      ↔ ¬ signature <:+: data.take 14 := by
  rw [← header_check_iff, Decode_open]
  constructor
  · intro h
    by_contra hc
    rw [if_neg hc] at h
    obtain ⟨r, hr⟩ := trackLoop_total data.length data data.length 50 [] (by omega)
    rw [hr] at h
    cases h
  · intro h
    rw [if_pos h]

/-- C9 (as stated, refuted): on the sample header followed by the `kick` record the cursor
after header parsing is 50, not 42, and the id of the first track (7) is the byte at
offset 50, while the byte at offset 42 is 0. -/
theorem C9_first_track_offset_counterexample :
    bytes.Index ((os.Open (sampleHeader ++ encodeRecord sampleKick)).ReadAt
        spliceHeaderLength 0) signature ≠ -1
    ∧ Decode (os.Open (sampleHeader ++ encodeRecord sampleKick))
        = some (.ok { version := sampleVersion, tempo := 1123024896, patterns := [sampleKick] })
    ∧ sampleKick.id = 7
    ∧ (sampleHeader ++ encodeRecord sampleKick)[42]? = some 0
    ∧ (sampleHeader ++ encodeRecord sampleKick)[42]? ≠ some sampleKick.id
    ∧ headerCursor (os.Open (sampleHeader ++ encodeRecord sampleKick)) ≠ 42 :=
  ⟨by decide, rfl, rfl, by decide, by decide, by decide⟩

/-- C9 (amended): header parsing advances the cursor by exactly 14 + 32 + 4 = 50 bytes
from the start, so the id of the first track that `Decode` returns (when there is one) is
the byte at offset 50 of the input. -/
theorem C9_header_cursor_fifty (data : List Nat) (p : Pattern) (t : DrumPattern)
    (rest : List DrumPattern)
    (h : Decode (os.Open data) = some (.ok p)) (hp : p.patterns = t :: rest) :
    headerCursor (os.Open data) = spliceHeaderLength + versionLength + tempoLength
    ∧ headerCursor (os.Open data) = 50
    ∧ data[50]? = some t.id := by
  refine ⟨headerCursor_open data, headerCursor_open data, ?_⟩
  have hloop := (Decode_ok_parts data p h).2.2.2
  rw [hp] at hloop
  obtain ⟨hlt, hid⟩ := trackLoop_first data.length data data.length 50 t rest hloop
  rw [hid, File.ReadAt_one_headD ⟨data, 0⟩ 50 hlt]

theorem C9_header_cursor_fifty_witness :
    Decode (os.Open (sampleHeader ++ encodeRecords [sampleHat, sampleKick]))
        = some (.ok { version := sampleVersion, tempo := 1123024896,
                      patterns := [sampleHat, sampleKick] })
    ∧ (headerCursor (os.Open (sampleHeader ++ encodeRecords [sampleHat, sampleKick]))
          = spliceHeaderLength + versionLength + tempoLength
      ∧ headerCursor (os.Open (sampleHeader ++ encodeRecords [sampleHat, sampleKick])) = 50
      ∧ (sampleHeader ++ encodeRecords [sampleHat, sampleKick])[50]? = some sampleHat.id) :=
  ⟨rfl, C9_header_cursor_fifty _
    { version := sampleVersion, tempo := 1123024896, patterns := [sampleHat, sampleKick] }
    sampleHat [sampleKick] rfl rfl⟩

/-- C10: on a byte input on which `Decode` succeeds, every track of the returned Pattern
has exactly 16 step bytes and a name of at most 255 bytes. -/
theorem C10_tracks_have_sixteen_steps (data : List Nat) (p : Pattern)
    (hbytes : isByteSeq data) (h : Decode (os.Open data) = some (.ok p)) :
    ∀ t ∈ p.patterns, t.track.length = 16 ∧ t.name.length ≤ 255 := by
  have hloop := (Decode_ok_parts data p h).2.2.2
  refine trackLoop_invariant (fun t => t.track.length = 16 ∧ t.name.length ≤ 255)
    data.length data ?_ data.length 50 [] p.patterns hloop (by simp)
  intro pos _
  refine ⟨File.ReadAt_length _ _ _, ?_⟩
  rw [File.ReadAt_length]
  have := File.ReadAt_one_headD_lt ⟨data, 0⟩ (pos + 1 + 3) hbytes
  omega

theorem C10_tracks_have_sixteen_steps_witness :
    isByteSeq (sampleHeader ++ encodeRecords [sampleKick] ++ [3, 0, 0, 0, 2, 104])
    ∧ Decode (os.Open (sampleHeader ++ encodeRecords [sampleKick] ++ [3, 0, 0, 0, 2, 104]))
        = some (.ok { version := sampleVersion, tempo := 1123024896,
                      patterns := [sampleKick,
                        { id := 3, name := [104, 0], track := List.replicate 16 0 }] })
    ∧ ∀ t ∈ [sampleKick, { id := 3, name := [104, 0], track := List.replicate 16 0 }],
        t.track.length = 16 ∧ t.name.length ≤ 255 :=
  ⟨by decide, rfl,
    C10_tracks_have_sixteen_steps
      (sampleHeader ++ encodeRecords [sampleKick] ++ [3, 0, 0, 0, 2, 104])
      { version := sampleVersion, tempo := 1123024896,
        patterns := [sampleKick, { id := 3, name := [104, 0], track := List.replicate 16 0 }] }
      (by decide) (by rfl)⟩

/-! ## Zero-filled reads -/

/-- Entry `i` of a read is the byte of the file at `ofst + i`, or zero past the end. -/
theorem File.ReadAt_getElem? (f : File) (length ofst i : Nat) :
    (f.ReadAt length ofst)[i]? = if i < length then some (f.data.getD (ofst + i) 0) else none := by
  unfold File.ReadAt
  by_cases hi : i < length
  · rw [if_pos hi]
    by_cases hin : ofst + i < f.data.length
    · rw [List.getElem?_append_left (by simp [List.length_take, List.length_drop]; omega)]
      rw [List.getElem?_take_of_lt hi, List.getElem?_drop, List.getD_eq_getElem?_getD,
        List.getElem?_eq_getElem hin]
      rfl
    · rw [List.getElem?_append_right (by simp [List.length_take, List.length_drop]; omega)]
      rw [List.getElem?_replicate, if_pos (by simp [List.length_take, List.length_drop]; omega)]
      rw [List.getD_eq_getElem?_getD, List.getElem?_eq_none (by omega)]
      rfl
  · rw [if_neg hi]
    apply List.getElem?_eq_none
    simp only [List.length_append, List.length_replicate, List.length_take, List.length_drop]
    omega

/-- Reads are decided by the zero-extended contents of the file. -/
theorem File.ReadAt_congr (f g : File) (length ofst : Nat)
    (h : ∀ i, i < length → f.data.getD (ofst + i) 0 = g.data.getD (ofst + i) 0) :
    f.ReadAt length ofst = g.ReadAt length ofst := by
  apply List.ext_getElem?
  intro i
  rw [File.ReadAt_getElem?, File.ReadAt_getElem?]
  split
  · rename_i hi; rw [h i hi]
  · rfl

/-- A read of `a + b` bytes is a read of `a` bytes followed by a read of `b` bytes. -/
theorem File.ReadAt_add (f : File) (a b ofst : Nat) :
    f.ReadAt (a + b) ofst = f.ReadAt a ofst ++ f.ReadAt b (ofst + a) := by
  apply List.ext_getElem?
  intro i
  rw [File.ReadAt_getElem?]
  by_cases hi : i < a
  · rw [List.getElem?_append_left (by rw [File.ReadAt_length]; exact hi), File.ReadAt_getElem?,
      if_pos hi, if_pos (by omega)]
  · rw [List.getElem?_append_right (by rw [File.ReadAt_length]; omega), File.ReadAt_length,
      File.ReadAt_getElem?]
    by_cases hb : i < a + b
    · rw [if_pos hb, if_pos (by omega)]
      congr 2; omega
    · rw [if_neg hb, if_neg (by omega)]

/-- Appending zero bytes to a file changes no read. -/
theorem File.ReadAt_append_zeros (data : List Nat) (m p q length ofst : Nat) :
    File.ReadAt ⟨data ++ List.replicate m 0, p⟩ length ofst = File.ReadAt ⟨data, q⟩ length ofst := by
  apply File.ReadAt_congr
  intro i _
  simp only [List.getD_eq_getElem?_getD]
  by_cases h : ofst + i < data.length
  · rw [List.getElem?_append_left h]
  · rw [List.getElem?_append_right (by omega), List.getElem?_replicate,
      List.getElem?_eq_none (by omega)]
    split <;> rfl

/-- Cutting a file at `k` changes no read that ends at or before `k`. -/
theorem File.ReadAt_take (data : List Nat) (k p q length ofst : Nat) (h : ofst + length ≤ k) :
    File.ReadAt ⟨data.take k, p⟩ length ofst = File.ReadAt ⟨data, q⟩ length ofst := by
  apply File.ReadAt_congr
  intro i hi
  simp only [List.getD_eq_getElem?_getD]
  rw [List.getElem?_take_of_lt (by omega)]

theorem File.ReadAt_one_eq (f : File) (ofst : Nat) :
    f.ReadAt 1 ofst = [(f.ReadAt 1 ofst).headD 0] := by
  have h := File.ReadAt_length f 1 ofst
  match hr : f.ReadAt 1 ofst with
  | [] => rw [hr] at h; cases h
  | [b] => rfl
  | _ :: _ :: _ => rw [hr] at h; simp at h

/-! ## The exit of the track loop -/

theorem trackLoopExit_succ (L fuel : Nat) (data : List Nat) (pos : Nat) :
    trackLoopExit L (fuel + 1) ⟨data, pos⟩ =
      if pos < L then
        if File.ReadAt ⟨data, 0⟩ 3 (pos + 1) ≠ [0, 0, 0] then some (⟨data, pos + 1 + 3⟩, true)
        else
          trackLoopExit L fuel
            ⟨data, pos + 1 + 3 + 1 + (File.ReadAt ⟨data, 0⟩ 1 (pos + 1 + 3)).headD 0 + 16⟩
      else some (⟨data, pos⟩, false) := by
  simp only [trackLoopExit, readAndSeek, File.Seek, File.ReadAt, trackIdLength, errBytesLength,
    trackLength, Nat.add_zero, bytes.Compare_eq_zero_iff, ne_eq]

theorem trackLoopExit_zero (L : Nat) (data : List Nat) (pos : Nat) :
    trackLoopExit L 0 ⟨data, pos⟩ = if pos < L then none else some (⟨data, pos⟩, false) := by
  simp only [trackLoopExit, File.Seek, Nat.add_zero]

/-- The record that one iteration of the loop builds at cursor `pos`. -/
theorem encodeRecord_read (data : List Nat) (pos : Nat)
    (hpad : File.ReadAt ⟨data, 0⟩ 3 (pos + 1) = [0, 0, 0]) :
    encodeRecord
        { id := (File.ReadAt ⟨data, 0⟩ 1 pos).headD 0,
          name := File.ReadAt ⟨data, 0⟩
            ((File.ReadAt ⟨data, 0⟩ 1 (pos + 1 + 3)).headD 0) (pos + 1 + 3 + 1),
          track := File.ReadAt ⟨data, 0⟩ 16
            (pos + 1 + 3 + 1 + (File.ReadAt ⟨data, 0⟩ 1 (pos + 1 + 3)).headD 0) }
      = File.ReadAt ⟨data, 0⟩
          (1 + 3 + 1 + (File.ReadAt ⟨data, 0⟩ 1 (pos + 1 + 3)).headD 0 + 16) pos := by
  rw [File.ReadAt_add, File.ReadAt_add, File.ReadAt_add, File.ReadAt_add, hpad]
  have h1 := File.ReadAt_one_eq ⟨data, 0⟩ pos
  have h2 := File.ReadAt_one_eq ⟨data, 0⟩ (pos + 1 + 3)
  simp only [encodeRecord, File.ReadAt_length]
  rw [show pos + (1 + 3) = pos + 1 + 3 by omega,
    show pos + (1 + 3 + 1) = pos + 1 + 3 + 1 by omega,
    show pos + (1 + 3 + 1 + (File.ReadAt ⟨data, 0⟩ 1 (pos + 1 + 3)).headD 0)
      = pos + 1 + 3 + 1 + (File.ReadAt ⟨data, 0⟩ 1 (pos + 1 + 3)).headD 0 by omega]
  conv_rhs => rw [h1, h2]
  simp

/-- More fuel does not change what the loop returns. -/
theorem trackLoop_fuel_mono (L : Nat) (data : List Nat) :
    ∀ (fuel extra pos : Nat) (acc r : List DrumPattern),
      trackLoop L fuel ⟨data, pos⟩ acc = some r →
      trackLoop L (fuel + extra) ⟨data, pos⟩ acc = some r := by
  intro fuel
  induction fuel with
  | zero =>
    intro extra pos acc r h
    rw [trackLoop_zero] at h
    split at h
    · cases h
    · rename_i hlt
      rw [trackLoop_done L _ data pos acc hlt]; exact h
  | succ fuel ih =>
    intro extra pos acc r h
    rw [show fuel + 1 + extra = (fuel + extra) + 1 by omega, trackLoop_succ]
    rw [trackLoop_succ] at h
    split
    · rename_i hlt
      rw [if_pos hlt] at h
      split
      · rename_i hpad; rw [if_pos hpad] at h; exact h
      · rename_i hpad; rw [if_neg hpad] at h; exact ih _ _ _ _ h
    · rename_i hlt; rw [if_neg hlt] at h; exact h

/-- The loop ends within `fuel` iterations when 21 bytes per unit of fuel cover the bytes
left before the end. -/
theorem trackLoop_total_of_fuel (L : Nat) (data : List Nat) :
    ∀ (fuel pos : Nat) (acc : List DrumPattern), L ≤ pos + 21 * fuel →
      ∃ r, trackLoop L fuel ⟨data, pos⟩ acc = some r := by
  intro fuel
  induction fuel with
  | zero =>
    intro pos acc h
    exact ⟨acc, by rw [trackLoop_zero, if_neg (by omega)]⟩
  | succ fuel ih =>
    intro pos acc h
    rw [trackLoop_succ]
    split
    · split
      · exact ⟨acc, rfl⟩
      · exact ih _ _ (by omega)
    · exact ⟨acc, rfl⟩

/-- The file that the loop leaves has the same contents, and its cursor has not moved back;
after a `break` it is at least four bytes further. -/
theorem trackLoopExit_cursor (L : Nat) (data : List Nat) :
    ∀ (fuel pos : Nat) (g : File) (b : Bool),
      trackLoopExit L fuel ⟨data, pos⟩ = some (g, b) →
      g.data = data ∧ pos ≤ g.pos ∧ (b = true → pos + 4 ≤ g.pos)
        ∧ (b = false → L ≤ g.pos) := by
  intro fuel
  induction fuel with
  | zero =>
    intro pos g b h
    rw [trackLoopExit_zero] at h
    split at h
    · cases h
    · rename_i hlt
      cases h
      exact ⟨rfl, Nat.le_refl _, fun hb => (by cases hb), fun _ => by simpa using hlt⟩
  | succ fuel ih =>
    intro pos g b h
    rw [trackLoopExit_succ] at h
    split at h
    · split at h
      · cases h
        exact ⟨rfl, (by simp only; omega), fun _ => (by simp only; omega), fun hb => (by cases hb)⟩
      · obtain ⟨h1, h2, h3, h4⟩ := ih _ _ _ h
        exact ⟨h1, by omega, fun hb => by have := h3 hb; omega, h4⟩
    · rename_i hlt
      cases h
      exact ⟨rfl, Nat.le_refl _, fun hb => (by cases hb), fun _ => by simpa using hlt⟩

/-- Every record the loop appends starts at a cursor before the end of the file, one
record after the other, and its bytes are the zero-filled read at that cursor. -/
theorem trackLoop_records_at (L : Nat) (data : List Nat) :
    ∀ (fuel pos : Nat) (acc r : List DrumPattern),
      trackLoop L fuel ⟨data, pos⟩ acc = some r →
      ∃ ts, r = acc ++ ts ∧ ∀ (i : Nat) (t : DrumPattern), ts[i]? = some t →
        pos + (encodeRecords (ts.take i)).length < L
        ∧ t.track.length = 16
        ∧ encodeRecord t
            = File.ReadAt ⟨data, 0⟩ (encodeRecord t).length
                (pos + (encodeRecords (ts.take i)).length) := by
  intro fuel
  induction fuel with
  | zero =>
    intro pos acc r h
    rw [trackLoop_zero] at h
    split at h
    · cases h
    · cases h; exact ⟨[], by simp, fun i t ht => by simp at ht⟩
  | succ fuel ih =>
    intro pos acc r h
    rw [trackLoop_succ] at h
    split at h
    · rename_i hlt
      split at h
      · cases h; exact ⟨[], by simp, fun i t ht => by simp at ht⟩
      · rename_i hpad
        rw [ne_eq, not_not] at hpad
        obtain ⟨ts, hr, hts⟩ := ih _ _ _ h
        have henc := encodeRecord_read data pos hpad
        refine ⟨_ :: ts, by rw [hr, List.append_assoc, List.singleton_append], ?_⟩
        intro i t ht
        cases i with
        | zero =>
          simp only [List.getElem?_cons_zero, Option.some.injEq] at ht
          subst ht
          refine ⟨by simpa [encodeRecords] using hlt, File.ReadAt_length _ _ _, ?_⟩
          rw [henc, File.ReadAt_length]
          simp [encodeRecords]
        | succ j =>
          rw [List.getElem?_cons_succ] at ht
          obtain ⟨h1, h2, h3⟩ := hts j t ht
          have hlen : pos + (encodeRecords
              (List.take (j + 1) (DrumPattern.mk ((File.ReadAt ⟨data, 0⟩ 1 pos).headD 0)
                (File.ReadAt ⟨data, 0⟩
                  ((File.ReadAt ⟨data, 0⟩ 1 (pos + 1 + 3)).headD 0) (pos + 1 + 3 + 1))
                (File.ReadAt ⟨data, 0⟩ 16
                  (pos + 1 + 3 + 1 + (File.ReadAt ⟨data, 0⟩ 1 (pos + 1 + 3)).headD 0))
                :: ts))).length
              = pos + 1 + 3 + 1 + (File.ReadAt ⟨data, 0⟩ 1 (pos + 1 + 3)).headD 0 + 16
                + (encodeRecords (ts.take j)).length := by
            rw [List.take_succ_cons, encodeRecords, List.length_append, henc, File.ReadAt_length]
            omega
          rw [hlen]
          exact ⟨h1, h2, h3⟩
    · cases h; exact ⟨[], by simp, fun i t ht => by simp at ht⟩

/-- A read that ends inside the file returns the bytes of the file. -/
theorem File.ReadAt_inside (f : File) (length ofst : Nat) (h : ofst + length ≤ f.data.length) :
    f.ReadAt length ofst = (f.data.drop ofst).take length := by
  simp only [File.ReadAt, List.length_take, List.length_drop]
  rw [show length - min length (f.data.length - ofst) = 0 by omega]
  simp

/-- The tracks that `Decode` returns, as records lying one after the other from offset 50. -/
theorem Decode_records_at (data : List Nat) (p : Pattern)
    (h : Decode (os.Open data) = some (.ok p)) (i : Nat) (t : DrumPattern)
    (ht : p.patterns[i]? = some t) :
    recordStart p.patterns i < data.length
    ∧ t.track.length = 16
    ∧ encodeRecord t
        = (os.Open data).ReadAt (encodeRecord t).length (recordStart p.patterns i) := by
  have hloop := (Decode_ok_parts data p h).2.2.2
  obtain ⟨ts, hr, hts⟩ := trackLoop_records_at data.length data data.length 50 [] _ hloop
  rw [List.nil_append] at hr
  rw [hr] at ht ⊢
  exact hts i t ht

theorem Decode_tracks_sixteen (data : List Nat) (p : Pattern)
    (h : Decode (os.Open data) = some (.ok p)) : ∀ t ∈ p.patterns, t.track.length = 16 := by
  intro t ht
  obtain ⟨i, hi⟩ := List.mem_iff_getElem?.mp ht
  exact (Decode_records_at data p h i t hi).2.1

/-- The loop stops appending only at a cursor that is at or past the end of the file, or at
a record whose three padding bytes, as read, are not all zero. -/
theorem trackLoop_stop (L : Nat) (data : List Nat) :
    ∀ (fuel pos : Nat) (acc r : List DrumPattern),
      trackLoop L fuel ⟨data, pos⟩ acc = some r →
      ∃ ts, r = acc ++ ts
        ∧ (L ≤ pos + (encodeRecords ts).length
          ∨ (pos + (encodeRecords ts).length < L
            ∧ File.ReadAt ⟨data, 0⟩ 3 (pos + (encodeRecords ts).length + 1) ≠ [0, 0, 0])) := by
  intro fuel
  induction fuel with
  | zero =>
    intro pos acc r h
    rw [trackLoop_zero] at h
    split at h
    · cases h
    · rename_i hlt
      cases h
      exact ⟨[], by simp, Or.inl (by simp only [encodeRecords, List.length_nil]; omega)⟩
  | succ fuel ih =>
    intro pos acc r h
    rw [trackLoop_succ] at h
    split at h
    · rename_i hlt
      split at h
      · rename_i hpad
        cases h
        exact ⟨[], by simp, Or.inr ⟨by simpa [encodeRecords] using hlt,
          by simpa [encodeRecords] using hpad⟩⟩
      · rename_i hpad
        rw [ne_eq, not_not] at hpad
        obtain ⟨ts, hr, hstop⟩ := ih _ _ _ h
        have henc := encodeRecord_read data pos hpad
        refine ⟨_ :: ts, by rw [hr, List.append_assoc, List.singleton_append], ?_⟩
        have hlen : pos + (encodeRecords
              (DrumPattern.mk ((File.ReadAt ⟨data, 0⟩ 1 pos).headD 0)
                (File.ReadAt ⟨data, 0⟩
                  ((File.ReadAt ⟨data, 0⟩ 1 (pos + 1 + 3)).headD 0) (pos + 1 + 3 + 1))
                (File.ReadAt ⟨data, 0⟩ 16
                  (pos + 1 + 3 + 1 + (File.ReadAt ⟨data, 0⟩ 1 (pos + 1 + 3)).headD 0))
                :: ts)).length
            = pos + 1 + 3 + 1 + (File.ReadAt ⟨data, 0⟩ 1 (pos + 1 + 3)).headD 0 + 16
              + (encodeRecords ts).length := by
          rw [encodeRecords, List.length_append, henc, File.ReadAt_length]
          omega
        rw [hlen]
        exact hstop
    · rename_i hlt
      cases h
      exact ⟨[], by simp, Or.inl (by simp only [encodeRecords, List.length_nil]; omega)⟩

/-- A record whose bytes are the zero-filled read at `ofst` has three zero bytes read as
padding at `ofst + 1`. -/
theorem padding_of_encodeRecord_read (f : File) (t : DrumPattern) (ofst : Nat)
    (h : encodeRecord t = f.ReadAt (encodeRecord t).length ofst) :
    f.ReadAt 3 (ofst + 1) = [0, 0, 0] := by
  have hlen : 5 ≤ (encodeRecord t).length := by
    simp only [encodeRecord, List.length_append, List.length_cons, List.length_nil]
    omega
  apply List.ext_getElem?
  intro i
  rw [File.ReadAt_getElem?]
  by_cases hi : i < 3
  · rw [if_pos hi]
    have hget := congrArg (fun l : List Nat => l[1 + i]?) h
    simp only at hget
    rw [File.ReadAt_getElem?, if_pos (by omega)] at hget
    rw [show ofst + 1 + i = ofst + (1 + i) by omega, ← hget]
    interval_cases i <;> simp [encodeRecord]
  · rw [if_neg hi, List.getElem?_eq_none (by simp; omega)]

/-- The track list that `Decode` returns ends where the loop had to stop: at or past the end
of the input, or at a record whose padding bytes are not all zero. -/
theorem Decode_stop (data : List Nat) (p : Pattern)
    (h : Decode (os.Open data) = some (.ok p)) :
    data.length ≤ recordStart p.patterns p.patterns.length
    ∨ (recordStart p.patterns p.patterns.length < data.length
      ∧ (os.Open data).ReadAt errBytesLength (recordStart p.patterns p.patterns.length + 1)
          ≠ [0, 0, 0]) := by
  have hloop := (Decode_ok_parts data p h).2.2.2
  obtain ⟨ts, hr, hstop⟩ := trackLoop_stop data.length data data.length 50 [] _ hloop
  rw [List.nil_append] at hr
  rw [hr]
  simp only [recordStart, List.take_length, spliceHeaderLength, versionLength, tempoLength,
    Nat.reduceAdd]
  exact hstop

/-- C11 (as stated, refuted): on the 51-byte input made of the sample header and the single
byte 3, `Decode` returns one track, read at offset 50, whose last step byte would lie at
offset 70: the offset just past it, 71, exceeds the input length. -/
theorem C11_record_past_end_counterexample :
    loneIdFile.length = 51
    ∧ Decode (os.Open loneIdFile)
        = some (.ok { version := sampleVersion, tempo := 1123024896,
                      patterns := [{ id := 3, name := [], track := List.replicate 16 0 }] })
    ∧ recordStart [{ id := 3, name := [], track := List.replicate 16 0 }] 0 = 50
    ∧ (encodeRecord { id := 3, name := [], track := List.replicate 16 0 }).length = 21
    ∧ ¬ (recordStart [{ id := 3, name := [], track := List.replicate 16 0 }] 0
          + (encodeRecord { id := 3, name := [], track := List.replicate 16 0 }).length
        ≤ loneIdFile.length) :=
  ⟨by decide, rfl, by decide, by decide, by decide⟩

/-- C11 (amended): a track record is constructed whenever the cursor is before the end of
the input and the three bytes read as padding are zero, with reads past the end of the input
zero-filled.  Every track record in the Pattern that `Decode` returns starts inside the
input (the offset of its id byte is below the input length), its padding bytes read as zero,
it has 16 step bytes, and its bytes (id, padding, name length, name, steps) are the input
bytes from that offset on with a zero for every byte past the end of the input; when the
record ends inside the input they are input bytes only.  The returned list is complete: the
offset after its last record is at or past the input length, or it is inside the input and
the padding bytes read there are not all zero.  And at every cursor before the end of the
input where the padding bytes read as zero, the loop appends the record read there and goes
on after it. -/
theorem C11_records_start_inside (data : List Nat) (p : Pattern)
    (h : Decode (os.Open data) = some (.ok p)) :
    (∀ (i : Nat) (t : DrumPattern), p.patterns[i]? = some t →
      recordStart p.patterns i < data.length
      ∧ (os.Open data).ReadAt errBytesLength (recordStart p.patterns i + 1) = [0, 0, 0]
      ∧ t.track.length = 16
      ∧ encodeRecord t
          = (os.Open data).ReadAt (encodeRecord t).length (recordStart p.patterns i)
      ∧ (recordStart p.patterns i + (encodeRecord t).length ≤ data.length →
          encodeRecord t
            = (data.drop (recordStart p.patterns i)).take (encodeRecord t).length))
    ∧ (data.length ≤ recordStart p.patterns p.patterns.length
      ∨ (recordStart p.patterns p.patterns.length < data.length
        ∧ (os.Open data).ReadAt errBytesLength (recordStart p.patterns p.patterns.length + 1)
            ≠ [0, 0, 0]))
    ∧ (∀ (fuel pos : Nat) (acc : List DrumPattern), pos < data.length →
        File.ReadAt ⟨data, 0⟩ 3 (pos + 1) = [0, 0, 0] →
        trackLoop data.length (fuel + 1) ⟨data, pos⟩ acc
          = trackLoop data.length fuel
              ⟨data, pos + 1 + 3 + 1 + (File.ReadAt ⟨data, 0⟩ 1 (pos + 1 + 3)).headD 0 + 16⟩
              (acc ++ [{ id := (File.ReadAt ⟨data, 0⟩ 1 pos).headD 0,
                         name := File.ReadAt ⟨data, 0⟩
                           ((File.ReadAt ⟨data, 0⟩ 1 (pos + 1 + 3)).headD 0) (pos + 1 + 3 + 1),
                         track := File.ReadAt ⟨data, 0⟩ 16
                           (pos + 1 + 3 + 1
                             + (File.ReadAt ⟨data, 0⟩ 1 (pos + 1 + 3)).headD 0) }])) := by
  refine ⟨?_, Decode_stop data p h, ?_⟩
  · intro i t ht
    obtain ⟨h1, h2, h3⟩ := Decode_records_at data p h i t ht
    refine ⟨h1, padding_of_encodeRecord_read (os.Open data) t _ h3, h2, h3, fun hin => ?_⟩
    have hread := File.ReadAt_inside (os.Open data) (encodeRecord t).length
      (recordStart p.patterns i) hin
    exact h3.trans hread
  · intro fuel pos acc hlt hpad
    rw [trackLoop_succ, if_pos hlt, if_neg (by rw [hpad]; simp)]

theorem C11_records_start_inside_witness :
    Decode (os.Open (sampleHeader ++ encodeRecords [sampleKick] ++ [3, 0, 0, 0, 2, 104]))
        = some (.ok { version := sampleVersion, tempo := 1123024896,
                      patterns := [sampleKick,
                        { id := 3, name := [104, 0], track := List.replicate 16 0 }] })
    ∧ [sampleKick, { id := 3, name := [104, 0], track := List.replicate 16 0 }][1]?
        = some { id := 3, name := [104, 0], track := List.replicate 16 0 }
    ∧ recordStart [sampleKick, { id := 3, name := [104, 0], track := List.replicate 16 0 }] 1
        < (sampleHeader ++ encodeRecords [sampleKick] ++ [3, 0, 0, 0, 2, 104]).length
    ∧ ((sampleHeader ++ encodeRecords [sampleKick] ++ [3, 0, 0, 0, 2, 104]).length
        ≤ recordStart [sampleKick, { id := 3, name := [104, 0], track := List.replicate 16 0 }]
            [sampleKick, { id := 3, name := [104, 0], track := List.replicate 16 0 }].length
      ∨ (recordStart [sampleKick, { id := 3, name := [104, 0], track := List.replicate 16 0 }]
            [sampleKick, { id := 3, name := [104, 0], track := List.replicate 16 0 }].length
          < (sampleHeader ++ encodeRecords [sampleKick] ++ [3, 0, 0, 0, 2, 104]).length
        ∧ (os.Open (sampleHeader ++ encodeRecords [sampleKick] ++ [3, 0, 0, 0, 2, 104])).ReadAt
            errBytesLength
            (recordStart
              [sampleKick, { id := 3, name := [104, 0], track := List.replicate 16 0 }]
              [sampleKick, { id := 3, name := [104, 0], track := List.replicate 16 0 }].length
              + 1)
            ≠ [0, 0, 0])) :=
  ⟨rfl, rfl,
    ((C11_records_start_inside
      (sampleHeader ++ encodeRecords [sampleKick] ++ [3, 0, 0, 0, 2, 104])
      { version := sampleVersion, tempo := 1123024896,
        patterns := [sampleKick, { id := 3, name := [104, 0], track := List.replicate 16 0 }] }
      (by rfl)).1
      1 { id := 3, name := [104, 0], track := List.replicate 16 0 } (by rfl)).1,
    (C11_records_start_inside
      (sampleHeader ++ encodeRecords [sampleKick] ++ [3, 0, 0, 0, 2, 104])
      { version := sampleVersion, tempo := 1123024896,
        patterns := [sampleKick, { id := 3, name := [104, 0], track := List.replicate 16 0 }] }
      (by rfl)).2.1⟩

/-- The two transcriptions of the loop run out of fuel together. -/
theorem trackLoop_exit_agree (L : Nat) (data : List Nat) :
    ∀ (fuel pos : Nat) (acc : List DrumPattern),
      (trackLoop L fuel ⟨data, pos⟩ acc = none ↔ trackLoopExit L fuel ⟨data, pos⟩ = none) := by
  intro fuel
  induction fuel with
  | zero =>
    intro pos acc
    rw [trackLoop_zero, trackLoopExit_zero]
    split <;> simp
  | succ fuel ih =>
    intro pos acc
    rw [trackLoop_succ, trackLoopExit_succ]
    split
    · split
      · simp
      · exact ih _ _
    · simp

/-- A loop left by `break` stopped at a record that starts inside the file and whose three
padding bytes, as read, are not all zero. -/
theorem trackLoopExit_break (L : Nat) (data : List Nat) :
    ∀ (fuel pos : Nat) (g : File),
      trackLoopExit L fuel ⟨data, pos⟩ = some (g, true) →
      ∃ k, g.pos = k + 4 ∧ pos ≤ k ∧ k < L ∧ File.ReadAt ⟨data, 0⟩ 3 (k + 1) ≠ [0, 0, 0] := by
  intro fuel
  induction fuel with
  | zero =>
    intro pos g h
    rw [trackLoopExit_zero] at h
    split at h <;> cases h
  | succ fuel ih =>
    intro pos g h
    rw [trackLoopExit_succ] at h
    split at h
    · rename_i hlt
      split at h
      · rename_i hpad
        cases h
        exact ⟨pos, rfl, Nat.le_refl _, hlt, hpad⟩
      · obtain ⟨k, h1, h2, h3, h4⟩ := ih _ _ h
        exact ⟨k, h1, by omega, h3, h4⟩
    · cases h

/-- When the loop is left by `break` at the record that starts at `k`, the loop on the file
cut to its first `k` bytes returns the same tracks. -/
theorem trackLoop_cut (L k : Nat) (data : List Nat) :
    ∀ (fuel pos : Nat) (acc : List DrumPattern) (g : File),
      trackLoopExit L fuel ⟨data, pos⟩ = some (g, true) → g.pos = k + 4 →
      trackLoop k fuel ⟨data.take k, pos⟩ acc = trackLoop L fuel ⟨data, pos⟩ acc := by
  intro fuel
  induction fuel with
  | zero =>
    intro pos acc g h _
    rw [trackLoopExit_zero] at h
    split at h <;> cases h
  | succ fuel ih =>
    intro pos acc g h hg
    rw [trackLoopExit_succ] at h
    split at h
    · rename_i hlt
      split at h
      · rename_i hpad
        cases h
        have hk : pos = k := by simp only at hg; omega
        subst hk
        rw [trackLoop_done _ _ _ _ _ (Nat.lt_irrefl _), trackLoop_succ, if_pos hlt, if_pos hpad]
      · rename_i hpad
        have hcur := (trackLoopExit_cursor L data _ _ _ _ h).2.2.1 rfl
        have e1 : File.ReadAt ⟨data.take k, 0⟩ 1 pos = File.ReadAt ⟨data, 0⟩ 1 pos :=
          File.ReadAt_take data k 0 0 1 pos (by omega)
        have e2 : File.ReadAt ⟨data.take k, 0⟩ 3 (pos + 1) = File.ReadAt ⟨data, 0⟩ 3 (pos + 1) :=
          File.ReadAt_take data k 0 0 3 (pos + 1) (by omega)
        have e3 : File.ReadAt ⟨data.take k, 0⟩ 1 (pos + 1 + 3)
            = File.ReadAt ⟨data, 0⟩ 1 (pos + 1 + 3) :=
          File.ReadAt_take data k 0 0 1 (pos + 1 + 3) (by omega)
        have e4 : File.ReadAt ⟨data.take k, 0⟩
              ((File.ReadAt ⟨data, 0⟩ 1 (pos + 1 + 3)).headD 0) (pos + 1 + 3 + 1)
            = File.ReadAt ⟨data, 0⟩
              ((File.ReadAt ⟨data, 0⟩ 1 (pos + 1 + 3)).headD 0) (pos + 1 + 3 + 1) :=
          File.ReadAt_take data k 0 0 _ (pos + 1 + 3 + 1) (by omega)
        have e5 : File.ReadAt ⟨data.take k, 0⟩ 16
              (pos + 1 + 3 + 1 + (File.ReadAt ⟨data, 0⟩ 1 (pos + 1 + 3)).headD 0)
            = File.ReadAt ⟨data, 0⟩ 16
              (pos + 1 + 3 + 1 + (File.ReadAt ⟨data, 0⟩ 1 (pos + 1 + 3)).headD 0) :=
          File.ReadAt_take data k 0 0 16 _ (by omega)
        rw [trackLoop_succ, trackLoop_succ, e1, e2, e3, e4, e5, if_pos hlt, if_pos (by omega),
          if_neg hpad, if_neg hpad, ih _ _ _ h hg]
    · cases h

/-- C12: when the track loop of `Decode` is left by `break` at the record that starts at
offset `k` (its three padding bytes are not `0,0,0`), `Decode` returns on the input the same
result, a Pattern and no error, as on the input cut to its first `k` bytes. -/
theorem C12_corrupted_same_as_cut (data : List Nat) (k : Nat)
    (hsig : bytes.Index ((os.Open data).ReadAt spliceHeaderLength 0) signature ≠ -1)
    (hstop : trackLoopExit data.length data.length ⟨data, headerCursor (os.Open data)⟩
      = some (⟨data, k + 4⟩, true)) :
    Decode (os.Open (data.take k)) = Decode (os.Open data)
    ∧ (∃ p, Decode (os.Open data) = some (.ok p))
    ∧ k < data.length
    ∧ (os.Open data).ReadAt errBytesLength (k + 1) ≠ [0, 0, 0] := by
  rw [headerCursor_open] at hstop
  obtain ⟨k', hk', h50, hlt, hpad⟩ := trackLoopExit_break _ _ _ _ _ hstop
  have hkk : k' = k := by simp only at hk'; omega
  subst hkk
  have hlen : (data.take k').length = k' := by rw [List.length_take]; omega
  have e0 : (os.Open (data.take k')).ReadAt spliceHeaderLength 0
      = (os.Open data).ReadAt spliceHeaderLength 0 :=
    File.ReadAt_take data k' 0 0 14 0 (by omega)
  have e1 : File.ReadAt ⟨data.take k', 0⟩ 32 14 = File.ReadAt ⟨data, 0⟩ 32 14 :=
    File.ReadAt_take data k' 0 0 32 14 (by omega)
  have e2 : File.ReadAt ⟨data.take k', 0⟩ 4 46 = File.ReadAt ⟨data, 0⟩ 4 46 :=
    File.ReadAt_take data k' 0 0 4 46 (by omega)
  have hcut := trackLoop_cut data.length k' data data.length 50 [] _ hstop rfl
  obtain ⟨r, hr⟩ := trackLoop_total k' (data.take k') k' 50 [] (by omega)
  have hr2 := trackLoop_fuel_mono k' (data.take k') k' (data.length - k') 50 [] r hr
  rw [show k' + (data.length - k') = data.length by omega, hcut] at hr2
  refine ⟨?_, ?_, hlt, hpad⟩
  · rw [Decode_open, Decode_open, e0, e1, e2, hlen, hr, hr2]
  · rw [Decode_open, if_neg hsig, hr2]
    exact ⟨_, rfl⟩

theorem C12_corrupted_same_as_cut_witness :
    bytes.Index ((os.Open (sampleHeader ++ encodeRecords [sampleKick] ++ [5, 0, 1, 0]
        ++ encodeRecord sampleHat)).ReadAt spliceHeaderLength 0) signature ≠ -1
    ∧ trackLoopExit
        (sampleHeader ++ encodeRecords [sampleKick] ++ [5, 0, 1, 0]
          ++ encodeRecord sampleHat).length
        (sampleHeader ++ encodeRecords [sampleKick] ++ [5, 0, 1, 0]
          ++ encodeRecord sampleHat).length
        ⟨sampleHeader ++ encodeRecords [sampleKick] ++ [5, 0, 1, 0] ++ encodeRecord sampleHat,
          headerCursor (os.Open (sampleHeader ++ encodeRecords [sampleKick] ++ [5, 0, 1, 0]
            ++ encodeRecord sampleHat))⟩
        = some (⟨sampleHeader ++ encodeRecords [sampleKick] ++ [5, 0, 1, 0]
            ++ encodeRecord sampleHat, 75 + 4⟩, true)
    ∧ Decode (os.Open ((sampleHeader ++ encodeRecords [sampleKick] ++ [5, 0, 1, 0]
          ++ encodeRecord sampleHat).take 75))
        = Decode (os.Open (sampleHeader ++ encodeRecords [sampleKick] ++ [5, 0, 1, 0]
          ++ encodeRecord sampleHat)) :=
  ⟨by decide, by decide,
    (C12_corrupted_same_as_cut
      (sampleHeader ++ encodeRecords [sampleKick] ++ [5, 0, 1, 0] ++ encodeRecord sampleHat) 75
      (by decide) (by decide)).1⟩

/-! ## Display -/

theorem foldl_append_lines (line : DrumPattern → List Nat) (ts : List DrumPattern)
    (f : List Nat) :
    ts.foldl (fun f pattern => f ++ line pattern) f = f ++ (ts.map line).flatten := by
  induction ts generalizing f with
  | nil => simp
  | cons t ts ih => simp [ih, List.append_assoc]

/-- C13: the text that `p.Format` writes is the version line, then the tempo line (the text
form of the tempo taken as given), then one line `(id) name TAB steps` per track in the
order of `p.patterns`, and nothing else; there are as many track lines as tracks. -/
theorem C13_format_lines (fmtFloat32 : Nat → List Nat) (p : Pattern) (f : List Nat) :
    p.Format fmtFloat32 f
        = f ++ (textBytes "Saved with HW Version: " ++ p.version ++ [10])
            ++ (textBytes "Tempo: " ++ fmtFloat32 p.tempo ++ [10])
            ++ (p.patterns.map trackLine).flatten
    ∧ (p.patterns.map trackLine).length = p.patterns.length
    ∧ (∀ t : DrumPattern,
        trackLine t = [40] ++ fmtDecimal t.id ++ [41, 32] ++ t.name ++ [9]
          ++ buildpattern t.track ++ [10])
    ∧ fmtDecimal 0 = [48] ∧ fmtDecimal 7 = [55] ∧ fmtDecimal 40 = [52, 48]
    ∧ fmtDecimal 255 = [50, 53, 53] := by
  refine ⟨?_, by simp, fun t => rfl, by decide, by decide, by decide, by decide⟩
  unfold Pattern.Format
  exact foldl_append_lines trackLine p.patterns _

/-- C14: when the signature check passes, `Decode` returns a Pattern whose tempo bits are
the little-endian value `b0 + 256*b1 + 65536*b2 + 16777216*b3` of the four bytes read after
the 32-byte version region, whatever these bytes are. -/
theorem C14_tempo_little_endian (data : List Nat) (b0 b1 b2 b3 : Nat)
    (hsig : bytes.Index ((os.Open data).ReadAt spliceHeaderLength 0) signature ≠ -1)
    (hb : (os.Open data).ReadAt tempoLength (spliceHeaderLength + versionLength)
      = [b0, b1, b2, b3]) :
    ∃ p, Decode (os.Open data) = some (.ok p)
      ∧ p.tempo = b0 + 256 * b1 + 65536 * b2 + 16777216 * b3 := by
  obtain ⟨r, hr⟩ := trackLoop_total data.length data data.length 50 [] (by omega)
  refine ⟨{ version := trim (File.ReadAt ⟨data, 0⟩ 32 14),
            tempo := binary.ReadLittleEndian32 (File.ReadAt ⟨data, 0⟩ 4 46),
            patterns := r }, ?_, ?_⟩
  · rw [Decode_open, if_neg hsig, hr]
  · have hb2 : File.ReadAt ⟨data, 0⟩ 4 46 = [b0, b1, b2, b3] := hb
    simp only [hb2, binary.ReadLittleEndian32]

theorem C14_tempo_little_endian_witness :
    bytes.Index ((os.Open (signature ++ List.replicate 40 0 ++ [1, 0, 192, 255])).ReadAt
        spliceHeaderLength 0) signature ≠ -1
    ∧ (os.Open (signature ++ List.replicate 40 0 ++ [1, 0, 192, 255])).ReadAt tempoLength
        (spliceHeaderLength + versionLength) = [1, 0, 192, 255]
    ∧ ∃ p, Decode (os.Open (signature ++ List.replicate 40 0 ++ [1, 0, 192, 255]))
          = some (.ok p)
        ∧ p.tempo = 1 + 256 * 0 + 65536 * 192 + 16777216 * 255 :=
  ⟨by decide, by decide,
    C14_tempo_little_endian (signature ++ List.replicate 40 0 ++ [1, 0, 192, 255]) 1 0 192 255
      (by decide) (by decide)⟩

/-- C15: `Decode` terminates on every input: the track loop never uses up the fuel it is
given (the file length), because it runs only while the cursor is before the end of the
file and every iteration that passes the padding check moves the cursor forward by
`1 + 3 + 1 + nameLength + 16`, at least 21 bytes; one unit of fuel per 21 bytes left is
enough. -/
theorem C15_decode_terminates (f : File) :
    (∃ r, Decode f = some r)
    ∧ (∀ (fuel pos : Nat) (acc : List DrumPattern), f.data.length ≤ pos + 21 * fuel →
        ∃ r, trackLoop f.data.length fuel ⟨f.data, pos⟩ acc = some r)
    ∧ (∀ (fuel pos : Nat) (acc : List DrumPattern), pos < f.data.length →
        File.ReadAt ⟨f.data, 0⟩ 3 (pos + 1) = [0, 0, 0] →
        pos + 21 ≤ pos + 1 + 3 + 1 + (File.ReadAt ⟨f.data, 0⟩ 1 (pos + 1 + 3)).headD 0 + 16
        ∧ trackLoop f.data.length (fuel + 1) ⟨f.data, pos⟩ acc
          = trackLoop f.data.length fuel
              ⟨f.data, pos + 1 + 3 + 1 + (File.ReadAt ⟨f.data, 0⟩ 1 (pos + 1 + 3)).headD 0 + 16⟩
              (acc ++ [{ id := (File.ReadAt ⟨f.data, 0⟩ 1 pos).headD 0,
                         name := File.ReadAt ⟨f.data, 0⟩
                           ((File.ReadAt ⟨f.data, 0⟩ 1 (pos + 1 + 3)).headD 0) (pos + 1 + 3 + 1),
                         track := File.ReadAt ⟨f.data, 0⟩ 16
                           (pos + 1 + 3 + 1
                             + (File.ReadAt ⟨f.data, 0⟩ 1 (pos + 1 + 3)).headD 0) }])) := by
  refine ⟨?_, fun fuel pos acc h => trackLoop_total_of_fuel _ _ fuel pos acc h, ?_⟩
  · obtain ⟨data, p0⟩ := f
    obtain ⟨r, hr⟩ := trackLoop_total data.length data data.length
      (p0 + spliceHeaderLength + versionLength + tempoLength) [] (by omega)
    simp only [Decode, readAndSeek, File.Seek, File.Size]
    split
    · exact ⟨_, rfl⟩
    · rw [hr]; exact ⟨_, rfl⟩
  · intro fuel pos acc hlt hpad
    refine ⟨by omega, ?_⟩
    rw [trackLoop_succ, if_pos hlt, if_neg (by rw [hpad]; simp)]

theorem C15_decode_terminates_witness :
    ∃ r, Decode (os.Open (sampleHeader ++ encodeRecords [sampleKick] ++ [3, 0, 0, 0, 2, 104]))
      = some r :=
  (C15_decode_terminates
    (os.Open (sampleHeader ++ encodeRecords [sampleKick] ++ [3, 0, 0, 0, 2, 104]))).1

/-! ## Zero-extension of the input -/

theorem DecodeCursor_open (data : List Nat) :
    DecodeCursor (os.Open data) =
      if bytes.Index ((os.Open data).ReadAt spliceHeaderLength 0) signature = -1 then
        some 14
      else
        match trackLoopExit data.length data.length ⟨data, 50⟩ with
        | none => none
        | some (g, _) => some g.pos := by
  rfl

theorem trackLoopExit_done (L fuel : Nat) (data : List Nat) (pos : Nat) (h : ¬ pos < L) :
    trackLoopExit L fuel ⟨data, pos⟩ = some (⟨data, pos⟩, false) := by
  cases fuel with
  | zero => rw [trackLoopExit_zero, if_neg h]
  | succ fuel => rw [trackLoopExit_succ, if_neg h]

/-- A read that starts inside the file and ends past its end: the rest of the file, then
zeros. -/
theorem File.ReadAt_overrun (f : File) (length ofst : Nat) (h1 : ofst ≤ f.data.length)
    (h2 : f.data.length ≤ ofst + length) :
    f.ReadAt length ofst
      = f.data.drop ofst ++ List.replicate (ofst + length - f.data.length) 0 := by
  unfold File.ReadAt
  rw [List.take_of_length_le (by rw [List.length_drop]; omega), List.length_drop]
  congr 2
  omega

/-- The loop on a file with the same zero-extended contents and a length between the old
length and the cursor at which the loop was left returns the same tracks. -/
theorem trackLoop_extend (L L' : Nat) (data data' : List Nat)
    (hread : ∀ n o, File.ReadAt ⟨data', 0⟩ n o = File.ReadAt ⟨data, 0⟩ n o) (hL : L ≤ L') :
    ∀ (fuel pos : Nat) (acc : List DrumPattern) (g : File) (b : Bool),
      trackLoopExit L fuel ⟨data, pos⟩ = some (g, b) → (b = false → L' ≤ g.pos) →
      trackLoop L' fuel ⟨data', pos⟩ acc = trackLoop L fuel ⟨data, pos⟩ acc := by
  intro fuel
  induction fuel with
  | zero =>
    intro pos acc g b h hb
    rw [trackLoopExit_zero] at h
    split at h
    · cases h
    · rename_i hlt
      cases h
      rw [trackLoop_done _ _ _ _ _ hlt,
        trackLoop_done _ _ _ _ _ (by have := hb rfl; simp only at this; omega)]
  | succ fuel ih =>
    intro pos acc g b h hb
    rw [trackLoopExit_succ] at h
    split at h
    · rename_i hlt
      rw [trackLoop_succ, trackLoop_succ, if_pos hlt, if_pos (by omega)]
      simp only [hread]
      split at h
      · rename_i hpad
        rw [if_pos hpad, if_pos hpad]
      · rename_i hpad
        rw [if_neg hpad, if_neg hpad]
        exact ih _ _ _ _ h hb
    · rename_i hlt
      cases h
      rw [trackLoop_done _ _ _ _ _ hlt,
        trackLoop_done _ _ _ _ _ (by have := hb rfl; simp only at this; omega)]

/-- When the loop is left at the end of the file with the cursor past the end, the last
track it returns starts inside the file and is the rest of the file followed by zeros. -/
theorem trackLoop_last (L : Nat) (data : List Nat) :
    ∀ (fuel pos : Nat) (acc r : List DrumPattern) (g : File), pos ≤ L →
      trackLoop L fuel ⟨data, pos⟩ acc = some r →
      trackLoopExit L fuel ⟨data, pos⟩ = some (g, false) → L < g.pos →
      ∃ (ts : List DrumPattern) (t : DrumPattern) (k : Nat),
        r = ts ++ [t] ∧ k < L ∧ k + (encodeRecord t).length = g.pos
        ∧ encodeRecord t = File.ReadAt ⟨data, 0⟩ (encodeRecord t).length k := by
  intro fuel
  induction fuel with
  | zero =>
    intro pos acc r g hpos _ he hg
    rw [trackLoopExit_zero] at he
    split at he
    · cases he
    · cases he; simp only at hg; omega
  | succ fuel ih =>
    intro pos acc r g hpos hr he hg
    rw [trackLoopExit_succ] at he
    rw [trackLoop_succ] at hr
    split at he
    · rename_i hlt
      rw [if_pos hlt] at hr
      split at he
      · cases he
      · rename_i hpad
        rw [if_neg hpad] at hr
        rw [ne_eq, not_not] at hpad
        by_cases hnext :
            pos + 1 + 3 + 1 + (File.ReadAt ⟨data, 0⟩ 1 (pos + 1 + 3)).headD 0 + 16 ≤ L
        · exact ih _ _ _ _ hnext hr he hg
        · rw [trackLoop_done _ _ _ _ _ (by omega)] at hr
          rw [trackLoopExit_done _ _ _ _ (by omega)] at he
          cases hr
          cases he
          have henc := encodeRecord_read data pos hpad
          refine ⟨acc, _, pos, rfl, hlt, ?_, ?_⟩
          · rw [henc, File.ReadAt_length]; simp only; omega
          · rw [henc, File.ReadAt_length]
    · cases he; simp only at hg; omega

/-- Reads at and after offset `k` only see the bytes of the file from `k` on. -/
theorem File.ReadAt_drop (data : List Nat) (k length j : Nat) :
    File.ReadAt ⟨data, 0⟩ length (k + j) = File.ReadAt ⟨data.drop k, 0⟩ length j := by
  apply List.ext_getElem?
  intro i
  rw [File.ReadAt_getElem?, File.ReadAt_getElem?]
  simp only [List.getD_eq_getElem?_getD, List.getElem?_drop]
  rw [Nat.add_assoc]

/-- A byte of a prefix, read with zero past its end, is the byte of the whole or zero. -/
theorem getD_prefix_or_zero (part full : List Nat) (h : part <+: full) (j : Nat) :
    (j < part.length ∧ part.getD j 0 = full.getD j 0) ∨ (part.length ≤ j ∧ part.getD j 0 = 0) := by
  obtain ⟨rest, rfl⟩ := h
  by_cases hj : j < part.length
  · left
    refine ⟨hj, ?_⟩
    simp only [List.getD_eq_getElem?_getD]
    rw [List.getElem?_append_left hj]
  · right
    refine ⟨by omega, ?_⟩
    simp only [List.getD_eq_getElem?_getD]
    rw [List.getElem?_eq_none (by omega)]
    rfl

/-- An input that ends inside a well-formed record: the loop appends the record read with
zeros for the missing bytes and ends. -/
theorem trackLoop_partial_record (data : List Nat) (R : DrumPattern) (part : List Nat)
    (k fuel : Nat) (acc : List DrumPattern)
    (hdrop : data.drop k = part) (hne : part ≠ []) (hpre : part <+: encodeRecord R)
    (hR : R.track.length = 16) (hlt : part.length < (encodeRecord R).length) :
    ∃ t, trackLoop data.length (fuel + 1) ⟨data, k⟩ acc = some (acc ++ [t])
      ∧ part.length < (encodeRecord t).length
      ∧ encodeRecord t = part ++ List.replicate ((encodeRecord t).length - part.length) 0 := by
  obtain ⟨a, rest, hpart⟩ : ∃ a rest, part = a :: rest := by
    cases part with
    | nil => exact absurd rfl hne
    | cons a rest => exact ⟨a, rest, rfl⟩
  have hk : k < data.length := by
    rw [hpart] at hdrop; exact lt_length_of_drop hdrop
  have hL : data.length = k + part.length := by
    rw [← hdrop, List.length_drop]; omega
  have hRlen : (encodeRecord R).length = 21 + R.name.length := by
    simp only [encodeRecord, List.length_append, List.length_cons, List.length_nil, hR]
    omega
  have hpad : File.ReadAt ⟨data, 0⟩ 3 (k + 1) = [0, 0, 0] := by
    rw [File.ReadAt_drop, hdrop]
    apply List.ext_getElem?
    intro i
    rw [File.ReadAt_getElem?]
    by_cases hi : i < 3
    · rw [if_pos hi]
      have hz : part.getD (1 + i) 0 = 0 := by
        rcases getD_prefix_or_zero part _ hpre (1 + i) with ⟨_, h⟩ | ⟨_, h⟩
        · rw [h]
          interval_cases i <;> simp [encodeRecord]
        · exact h
      rw [show (File.mk part 0).data = part from rfl, hz]
      interval_cases i <;> rfl
    · rw [if_neg hi, List.getElem?_eq_none (by simp; omega)]
  have hnl : data.length
      < k + 1 + 3 + 1 + (File.ReadAt ⟨data, 0⟩ 1 (k + 1 + 3)).headD 0 + 16 := by
    by_cases h5 : part.length ≤ 4
    · omega
    · have hread : (File.ReadAt ⟨data, 0⟩ 1 (k + 1 + 3)).headD 0 = part.getD 4 0 := by
        have h0 := File.ReadAt_getElem? ⟨data.drop k, 0⟩ 1 4 0
        rw [← File.ReadAt_drop, if_pos (by omega), hdrop] at h0
        rw [show k + 4 = k + 1 + 3 by omega] at h0
        rw [File.ReadAt_one_eq] at h0
        simpa using h0
      rcases getD_prefix_or_zero part _ hpre 4 with ⟨_, h⟩ | ⟨h, _⟩
      · rw [hread, h]
        have : (encodeRecord R).getD 4 0 = R.name.length := by simp [encodeRecord]
        rw [this]; omega
      · omega
  have henc := encodeRecord_read data k hpad
  refine ⟨DrumPattern.mk ((File.ReadAt ⟨data, 0⟩ 1 k).headD 0)
      (File.ReadAt ⟨data, 0⟩ ((File.ReadAt ⟨data, 0⟩ 1 (k + 1 + 3)).headD 0) (k + 1 + 3 + 1))
      (File.ReadAt ⟨data, 0⟩ 16
        (k + 1 + 3 + 1 + (File.ReadAt ⟨data, 0⟩ 1 (k + 1 + 3)).headD 0)), ?_, ?_, ?_⟩
  · rw [trackLoop_succ, if_pos hk, if_neg (by rw [hpad]; simp),
      trackLoop_done _ _ _ _ _ (by omega)]
  · rw [henc, File.ReadAt_length]; omega
  · rw [henc, File.ReadAt_length,
      File.ReadAt_overrun ⟨data, 0⟩ _ k (by simp only; omega) (by simp only; omega)]
    simp only
    rw [hdrop]
    congr 2
    omega

/-- C16: reads past the end of the input behave as reads of zero bytes: when `Decode`
returns with the cursor at `c`, it returns the same result on the input extended by
`c - L` zero bytes (none when `c ≤ L`).  In particular, when the track loop is left at the end
of an input of at least 50 bytes with the cursor past the end, the last track returned
starts inside the input and its bytes are the rest of the input followed by `c - L` zeros;
and an input that ends inside a well-formed record, after complete records, yields these
records and a final track whose bytes are the bytes present followed by zeros. -/
theorem C16_zero_extension (data : List Nat) (c : Nat)
    (hc : DecodeCursor (os.Open data) = some c) :
    Decode (os.Open (data ++ List.replicate (c - data.length) 0)) = Decode (os.Open data)
    ∧ (∀ p : Pattern, Decode (os.Open data) = some (.ok p) → 50 ≤ data.length →
        data.length < c →
        trackLoopExit data.length data.length ⟨data, headerCursor (os.Open data)⟩
          = some (⟨data, c⟩, false) →
        ∃ (ts : List DrumPattern) (t : DrumPattern) (k : Nat),
          p.patterns = ts ++ [t] ∧ k < data.length ∧ k + (encodeRecord t).length = c
          ∧ encodeRecord t = data.drop k ++ List.replicate (c - data.length) 0)
    ∧ (∀ (ts : List DrumPattern) (R : DrumPattern) (part : List Nat),
        bytes.Index ((os.Open data).ReadAt spliceHeaderLength 0) signature ≠ -1 →
        (∀ t ∈ ts, t.track.length = 16) → R.track.length = 16 →
        data.drop (headerCursor (os.Open data)) = encodeRecords ts ++ part →
        part ≠ [] → part <+: encodeRecord R → part ≠ encodeRecord R →
        ∃ (p : Pattern) (t : DrumPattern),
          Decode (os.Open data) = some (.ok p) ∧ p.patterns = ts ++ [t]
          ∧ part.length < (encodeRecord t).length
          ∧ encodeRecord t
              = part ++ List.replicate ((encodeRecord t).length - part.length) 0) := by
  refine ⟨?_, ?_, ?_⟩
  · have hread : ∀ n o, File.ReadAt ⟨data ++ List.replicate (c - data.length) 0, 0⟩ n o
        = File.ReadAt ⟨data, 0⟩ n o :=
      fun n o => File.ReadAt_append_zeros data (c - data.length) 0 0 n o
    have e0 : (os.Open (data ++ List.replicate (c - data.length) 0)).ReadAt spliceHeaderLength 0
        = (os.Open data).ReadAt spliceHeaderLength 0 := hread 14 0
    have hlen : (data ++ List.replicate (c - data.length) 0).length
        = data.length + (c - data.length) := by simp
    rw [DecodeCursor_open] at hc
    rw [Decode_open, Decode_open, e0, hread, hread, hlen]
    split
    · rfl
    · rename_i hsig
      rw [if_neg hsig] at hc
      split at hc
      · cases hc
      · rename_i g b hexit
        cases hc
        obtain ⟨_, _, _, hend⟩ := trackLoopExit_cursor _ _ _ _ _ _ hexit
        have hsame := trackLoop_extend data.length (data.length + (g.pos - data.length)) data
          (data ++ List.replicate (g.pos - data.length) 0) hread (by omega)
          data.length 50 [] g b hexit (fun hb => by have := hend hb; omega)
        obtain ⟨r, hr⟩ := trackLoop_total data.length data data.length 50 [] (by omega)
        rw [hr] at hsame
        rw [trackLoop_fuel_mono _ _ data.length (g.pos - data.length) 50 [] r hsame, hr]
  · intro p hp h50 hlt hexit
    rw [headerCursor_open] at hexit
    have hloop := (Decode_ok_parts data p hp).2.2.2
    obtain ⟨ts, t, k, h1, h2, h3, h4⟩ :=
      trackLoop_last data.length data data.length 50 [] p.patterns _ h50 hloop hexit hlt
    simp only at h3
    refine ⟨ts, t, k, h1, h2, h3, ?_⟩
    rw [h4, File.ReadAt_overrun ⟨data, 0⟩ _ k (by simp only; omega) (by simp only; omega)]
    simp only
    rw [h3]
  · intro ts R part hsig hts hR hregion hne hpre hneq
    rw [headerCursor_open] at hregion
    have hlt : part.length < (encodeRecord R).length := by
      rcases Nat.lt_or_ge part.length (encodeRecord R).length with h | h
      · exact h
      · exact absurd (hpre.eq_of_length (Nat.le_antisymm hpre.length_le h)) hneq
    have hpos : 0 < part.length := List.length_pos.mpr hne
    have hlen : (encodeRecords ts).length + part.length = data.length - 50 := by
      rw [← List.length_drop, hregion, List.length_append]
    have hge := encodeRecords_length_ge ts hts
    have hwalk := trackLoop_records data ts hts data.length 50 [] part hregion (by omega)
    obtain ⟨fuel, hfuel⟩ : ∃ m, data.length - ts.length = m + 1 :=
      ⟨data.length - ts.length - 1, by omega⟩
    obtain ⟨t, ht, hlen2, henc⟩ := trackLoop_partial_record data R part
      (50 + (encodeRecords ts).length) fuel ([] ++ ts) (drop_add_of_drop hregion) hne hpre hR hlt
    rw [hfuel, ht] at hwalk
    refine ⟨{ version := trim (File.ReadAt ⟨data, 0⟩ 32 14),
              tempo := binary.ReadLittleEndian32 (File.ReadAt ⟨data, 0⟩ 4 46),
              patterns := [] ++ ts ++ [t] }, t, ?_, ?_, hlen2, henc⟩
    · rw [Decode_open, if_neg hsig, hwalk]
    · simp

theorem C16_zero_extension_witness :
    DecodeCursor (os.Open (sampleHeader ++ encodeRecords [sampleKick] ++ [3, 0, 0, 0, 2, 104]))
        = some 98
    ∧ (sampleHeader ++ encodeRecords [sampleKick] ++ [3, 0, 0, 0, 2, 104]).length = 81
    ∧ Decode (os.Open (sampleHeader ++ encodeRecords [sampleKick] ++ [3, 0, 0, 0, 2, 104]
          ++ List.replicate
            (98 - (sampleHeader ++ encodeRecords [sampleKick] ++ [3, 0, 0, 0, 2, 104]).length) 0))
        = Decode (os.Open (sampleHeader ++ encodeRecords [sampleKick] ++ [3, 0, 0, 0, 2, 104])) :=
  ⟨by decide, by decide,
    (C16_zero_extension (sampleHeader ++ encodeRecords [sampleKick] ++ [3, 0, 0, 0, 2, 104]) 98
      (by decide)).1⟩

/-- C17: the number of tracks is bounded by the input length: when `Decode` returns
`n ≥ 1` tracks on an input of length `L` then `50 + 21 * (n - 1) < L`, and when `L ≤ 50` it
returns no tracks; 50 is the 14 + 32 + 4 bytes of the header. -/
theorem C17_track_count_bound (data : List Nat) (p : Pattern)
    (h : Decode (os.Open data) = some (.ok p)) :
    (1 ≤ p.patterns.length → 50 + 21 * (p.patterns.length - 1) < data.length)
    ∧ (data.length ≤ 50 → p.patterns = [])
    ∧ spliceHeaderLength + versionLength + tempoLength = 50 := by
  have hbound : 1 ≤ p.patterns.length → 50 + 21 * (p.patterns.length - 1) < data.length := by
    intro hn
    have hi : p.patterns.length - 1 < p.patterns.length := by omega
    have hget : p.patterns[p.patterns.length - 1]? = some (p.patterns[p.patterns.length - 1]) :=
      List.getElem?_eq_getElem hi
    have hstart := (Decode_records_at data p h _ _ hget).1
    have hsix : ∀ t ∈ p.patterns.take (p.patterns.length - 1), t.track.length = 16 :=
      fun t ht => Decode_tracks_sixteen data p h t (List.mem_of_mem_take ht)
    have hge := encodeRecords_length_ge _ hsix
    rw [List.length_take] at hge
    simp only [recordStart, spliceHeaderLength, versionLength, tempoLength] at hstart
    omega
  refine ⟨hbound, ?_, rfl⟩
  intro hL
  by_contra hne
  have hpos : 1 ≤ p.patterns.length := by
    cases hp : p.patterns with
    | nil => exact absurd hp hne
    | cons t ts => simp
  have := hbound hpos
  omega

theorem C17_track_count_bound_witness :
    Decode (os.Open (sampleHeader ++ encodeRecords [sampleKick, sampleHat]))
        = some (.ok { version := sampleVersion, tempo := 1123024896,
                      patterns := [sampleKick, sampleHat] })
    ∧ (1 ≤ [sampleKick, sampleHat].length →
        50 + 21 * ([sampleKick, sampleHat].length - 1)
          < (sampleHeader ++ encodeRecords [sampleKick, sampleHat]).length) :=
  ⟨rfl,
    (C17_track_count_bound (sampleHeader ++ encodeRecords [sampleKick, sampleHat])
      { version := sampleVersion, tempo := 1123024896, patterns := [sampleKick, sampleHat] }
      (by rfl)).1⟩

/-! ## Rendering distinguishes exactly the active steps -/

theorem buildpatternLoop_acc (s : List Nat) :
    ∀ (key : Nat) (acc : List Nat),
      buildpatternLoop s key acc = acc ++ buildpatternLoop s key [] := by
  induction s with
  | nil => intro key acc; simp [buildpatternLoop_nil]
  | cons v s ih =>
    intro key acc
    rw [buildpatternLoop_cons, buildpatternLoop_cons, ih (key + 1) (if key % 4 = 3 then _ else _),
      ih (key + 1) (if key % 4 = 3 then [] ++ [stepChar v] ++ [0x7c] else [] ++ [stepChar v])]
    split <;> simp

theorem stepChar_eq_iff (a b : Nat) : stepChar a = stepChar b ↔ (a = 1 ↔ b = 1) := by
  unfold stepChar
  by_cases ha : a = 1 <;> by_cases hb : b = 1 <;> simp [ha, hb]

theorem buildpatternLoop_inj (s : List Nat) :
    ∀ (t : List Nat) (key : Nat),
      buildpatternLoop s key [] = buildpatternLoop t key [] ↔
        s.length = t.length ∧ ∀ i : Nat, (s[i]? = some 1 ↔ t[i]? = some 1) := by
  induction s with
  | nil =>
    intro t key
    cases t with
    | nil => simp
    | cons w t =>
      rw [buildpatternLoop_nil, buildpatternLoop_cons, buildpatternLoop_acc]
      constructor
      · intro h
        have hl := congrArg List.length h
        split at hl <;> simp at hl
      · intro h; simp at h
  | cons v s ih =>
    intro t key
    cases t with
    | nil =>
      rw [buildpatternLoop_nil, buildpatternLoop_cons, buildpatternLoop_acc]
      constructor
      · intro h
        have hl := congrArg List.length h
        split at hl <;> simp at hl
      · intro h; simp at h
    | cons w t =>
      rw [buildpatternLoop_cons, buildpatternLoop_cons, buildpatternLoop_acc s,
        buildpatternLoop_acc t]
      have hstep : (∀ i : Nat, ((v :: s)[i]? = some 1 ↔ (w :: t)[i]? = some 1))
          ↔ ((v = 1 ↔ w = 1) ∧ ∀ i : Nat, (s[i]? = some 1 ↔ t[i]? = some 1)) := by
        constructor
        · intro h
          refine ⟨by simpa using h 0, fun i => by simpa using h (i + 1)⟩
        · rintro ⟨h0, hs⟩ i
          cases i with
          | zero => simpa using h0
          | succ j => simpa using hs j
      rw [hstep, ← stepChar_eq_iff, ← and_assoc, and_comm (a := (v :: s).length = (w :: t).length),
        and_assoc]
      simp only [List.length_cons, Nat.add_right_cancel_iff]
      rw [← ih t (key + 1)]
      by_cases hk : key % 4 = 3
      · simp only [hk, if_true, List.nil_append, List.cons_append, List.cons.injEq, true_and]
      · simp only [hk, if_false, List.nil_append, List.cons_append, List.cons.injEq]

/-- C18: `buildpattern` distinguishes step sequences exactly by their active positions:
`buildpattern s = buildpattern t` if and only if `s` and `t` have the same length and at
every index `s` holds a 1 exactly when `t` does. -/
theorem C18_buildpattern_injective (s t : List Nat) :
    buildpattern s = buildpattern t
      ↔ s.length = t.length ∧ ∀ i : Nat, (s[i]? = some 1 ↔ t[i]? = some 1) := by
  unfold buildpattern
  rw [buildpatternLoop_acc s, buildpatternLoop_acc t, List.append_cancel_left_eq]
  exact buildpatternLoop_inj s t 0

end drum
